import Mathlib

/-!
Verification of the block-design constructors of
`src/sage/combinat/designs/block_design.py`.

The Python module is shallowly embedded below.  Pure numeric helpers become
Lean functions on `ℕ`/`ℤ`; functions that can raise become `Except`-valued
functions; a finite field of order `n` is represented by a type `K` with a
`Field` instance together with an enumeration `e : K ≃ Fin n` (the iteration
order used to build the `relabel` dictionary in the source).  External
collaborators (sage's `binomial`, `two_squares`, `is_prime_power`, the GAP
field constructor, the incidence-structure facade and the vector-space
enumerator) are not part of the repository's source and are modelled from the
specification where needed; each such definition says so in its doc comment.
-/

/-! ### tdesign_params (lines 77-95) -/

/-- Modelled from the spec: `sage.rings.arith.binomial` on naturals is the
exact binomial coefficient. -/
def binomial (n k : ℕ) : ℕ := Nat.choose n k

/-- Embedding of `tdesign_params(t, v, k, L)` (lines 77-95).
`b` is `divmod(L*x, y)[0]` (integer floor division) and `r` is
`integer_floor(L * x / y)` where `/` is exact rational division. -/
def tdesign_params (t v k L : ℕ) : ℕ × ℕ × ℕ × ℕ × ℕ × ℕ :=
  let x := binomial v t
  let y := binomial k t
  let b := (L * x) / y
  let x2 := binomial (v - 1) (t - 1)
  let y2 := binomial (k - 1) (t - 1)
  let r := (⌊((L * x2 : ℕ) : ℚ) / ((y2 : ℕ) : ℚ)⌋).toNat
  (t, v, b, r, k, L)

/-- The rational floor used for `r` agrees with natural floor division. -/
lemma int_floor_nat_div (a b : ℕ) : (⌊((a : ℚ)) / ((b : ℕ) : ℚ)⌋).toNat = a / b := by
  rw [Int.floor_toNat, Nat.floor_div_nat, Nat.floor_natCast]

/-! ### The plane existence oracle: projective_plane(n) (lines 346-410) -/

/-- Modelled from the spec: `sage.rings.arith.is_prime_power` decides whether
`n` is `p^k` for a prime `p` and `k ≥ 1` (bounded search form). -/
def is_prime_power (n : ℕ) : Bool :=
  decide (∃ p < n + 1, ∃ k < n + 1, Nat.Prime p ∧ 0 < k ∧ p ^ k = n)

/-- Modelled from the spec: `sage.rings.arith.two_squares(n)` succeeds exactly
when `n` is a sum of two squares (bounded search form). -/
def two_squares_ok (n : ℕ) : Bool :=
  decide (∃ a < n + 1, ∃ b < n + 1, a ^ 2 + b ^ 2 = n)

lemma is_prime_power_iff (n : ℕ) : is_prime_power n = true ↔ IsPrimePow n := by
  constructor
  · intro h
    simp only [is_prime_power, decide_eq_true_eq] at h
    obtain ⟨p, _, k, _, hp, hk, hpk⟩ := h
    exact ⟨p, k, hp.prime, hk, hpk⟩
  · rintro ⟨p, k, hp, hk, hpk⟩
    have hp' : Nat.Prime p := Nat.prime_iff.2 hp
    have hn2 : 2 ≤ n := by
      calc 2 ≤ p := hp'.two_le
      _ = p ^ 1 := (pow_one p).symm
      _ ≤ p ^ k := Nat.pow_le_pow_right hp'.pos hk
      _ = n := hpk
    have hpn : p ≤ n := by
      calc p = p ^ 1 := (pow_one p).symm
      _ ≤ p ^ k := Nat.pow_le_pow_right hp'.pos hk
      _ = n := hpk
    have hkn : k < n + 1 := by
      have h2k : 2 ^ k ≤ n := by
        calc 2 ^ k ≤ p ^ k := Nat.pow_le_pow_left hp'.two_le k
        _ = n := hpk
      have := Nat.lt_two_pow k
      omega
    simp only [is_prime_power, decide_eq_true_eq]
    exact ⟨p, by omega, k, hkn, hp', hk, hpk⟩

lemma two_squares_ok_iff (n : ℕ) :
    two_squares_ok n = true ↔ ∃ a b : ℤ, a ^ 2 + b ^ 2 = (n : ℤ) := by
  constructor
  · intro h
    simp only [two_squares_ok, decide_eq_true_eq] at h
    obtain ⟨a, _, b, _, hab⟩ := h
    exact ⟨(a : ℤ), (b : ℤ), by exact_mod_cast hab⟩
  · rintro ⟨a, b, hab⟩
    have hab' : a.natAbs ^ 2 + b.natAbs ^ 2 = n := by
      have : ((a.natAbs ^ 2 + b.natAbs ^ 2 : ℕ) : ℤ) = (n : ℤ) := by
        push_cast [Int.natAbs_sq]
        rw [sq_abs, sq_abs]
        exact hab
      exact_mod_cast this
    have ha2 : a.natAbs ^ 2 ≤ n := hab' ▸ Nat.le_add_right _ _
    have hb2 : b.natAbs ^ 2 ≤ n := hab' ▸ Nat.le_add_left _ _
    have ha : a.natAbs ≤ n :=
      le_trans (Nat.le_self_pow (by norm_num : (2 : ℕ) ≠ 0) _) ha2
    have hb : b.natAbs ≤ n :=
      le_trans (Nat.le_self_pow (by norm_num : (2 : ℕ) ≠ 0) _) hb2
    simp only [two_squares_ok, decide_eq_true_eq]
    exact ⟨a.natAbs, by omega, b.natAbs, by omega, hab'⟩

/-- Outcome of `projective_plane(n)`: `emptySetError` is the `NoSuchDesign`
failure (`EmptySetError`), `notImplementedError` is the `ConstructionUnknown`
failure (`NotImplementedError`), and `desarguesian n` records the successful
call `DesarguesianProjectivePlaneDesign(n)`. -/
inductive PlaneOutcome where
  | emptySetError
  | notImplementedError
  | desarguesian (n : ℤ)
deriving DecidableEq

/-- Embedding of `projective_plane(n)` (lines 346-410).  The guards are
flattened: the source raises `EmptySetError` inside the `n % 4 ∈ [1,2]`
branch only when `two_squares(n)` raises, and otherwise falls through, which
is the single conjunction tested here. -/
def projective_plane (n : ℤ) : PlaneOutcome :=
  if n ≤ 1 then .emptySetError
  else if n = 10 then .emptySetError
  else if (n % 4 = 1 ∨ n % 4 = 2) ∧ two_squares_ok n.toNat = false then .emptySetError
  else if is_prime_power n.toNat = false then .notImplementedError
  else .desarguesian n

/-! ### Field-argument handling of the geometry constructors (C7) -/

/-- Equality of `Except` values is decidable when both components are. -/
instance exceptDecEq {ε α : Type} [DecidableEq ε] [DecidableEq α] :
    DecidableEq (Except ε α) := fun x y =>
  match x, y with
  | .error e, .error f =>
    if h : e = f then .isTrue (h ▸ rfl) else .isFalse fun hc => h (Except.error.inj hc)
  | .error _, .ok _ => .isFalse fun hc => Except.noConfusion hc
  | .ok _, .error _ => .isFalse fun hc => Except.noConfusion hc
  | .ok a, .ok b =>
    if h : a = b then .isTrue (h ▸ rfl) else .isFalse fun hc => h (Except.ok.inj hc)

/-- Python-level errors surfaced by the embedded functions. -/
inductive PyError where
  | attributeError
  | typeError
  | invalidFieldOrder
  | indexError
  | assertionError
  | keyError
deriving DecidableEq

/-- The `F` argument of the geometry constructors: either a bare integer or a
finite-field object (represented by its order, which for an actual field
object is always a prime power). -/
inductive FieldArg where
  | int (n : ℕ)
  | fld (q : ℕ)
deriving DecidableEq

/-- Embedding of line 132 (`q = F.order()` in `ProjectiveGeometryDesign`): a
field object reports its order, a bare integer has no `order` method and the
attribute lookup raises `AttributeError`. -/
def PGD_field_order : FieldArg → Except PyError ℕ
  | .fld q => .ok q
  | .int _ => .error .attributeError

/-- Embedding of lines 465-468 (`AffineGeometryDesign`): `int(F)` succeeds on
a bare integer; on a field object it raises `TypeError`, which is caught and
`F.order()` is used instead. -/
def AGD_field_order : FieldArg → Except PyError ℕ
  | .int n => .ok n
  | .fld q => .ok q

/-- Modelled from the spec: the field construction performed by the external
collaborator (`GaloisField(q)` in line 472) fails with the `InvalidFieldOrder`
error unless `q` is a prime power. -/
def build_field (q : ℕ) : Except PyError ℕ :=
  if is_prime_power q then .ok q else .error .invalidFieldOrder

/-- The field-setup phase of `AffineGeometryDesign`: extract `q` from `F`,
then build the field of order `q`. -/
def AGD_field_setup (F : FieldArg) : Except PyError ℕ :=
  (AGD_field_order F).bind fun q => (build_field q).bind fun _ => .ok q

/-! ### OA_to_projective_plane (lines 305-344) -/

/-- Embedding of `OA_to_projective_plane(OA, check)` (lines 305-344).
`n` is read off the first row (`len(OA[0]) - 1`; an empty input raises
`IndexError`), the row count is asserted to be `n^2`, and the blocks are the
`n^2` transversal blocks `[i + (n+1)*l[i] for i in 0..len(l)-1]` followed by
the `n+1` lines `range(i*n, (i+1)*n) + [n^2+n]`.  The `check` flag is passed
to the external incidence-structure facade and does not affect the value. -/
def OA_to_projective_plane (OA : List (List ℕ)) (check : Bool) :
    Except PyError (ℕ × List (List ℕ)) :=
  match OA with
  | [] => .error .indexError
  | r0 :: _ =>
    let n := r0.length - 1
    let n2 := n ^ 2
    if OA.length ≠ n2 then .error .assertionError
    else
      let _ := check
      .ok (n2 + n + 1,
        OA.map (fun l => l.enum.map fun p => p.1 + (n + 1) * p.2) ++
        (List.range (n + 1)).map (fun i => List.range' (i * n) n ++ [n2 + n]))

/-! ### Claim theorems: C6, C4, C7, C8 -/

/-- C6: for all positive integers `t, v, k, L` with `k ≤ v` and `t ≤ k` (in
fact for all naturals), `tdesign_params(t,v,k,L)` returns
`(t, v, b, r, k, L)` with `b = ⌊L·C(v,t)/C(k,t)⌋` and
`r = ⌊L·C(v-1,t-1)/C(k-1,t-1)⌋`, computed exactly; in particular
`tdesign_params(2,7,3,1) = (2,7,7,3,3,1)`. -/
theorem tdesign_params_correct :
    (∀ t v k L : ℕ, tdesign_params t v k L =
      (t, v, L * Nat.choose v t / Nat.choose k t,
        L * Nat.choose (v - 1) (t - 1) / Nat.choose (k - 1) (t - 1), k, L)) ∧
    tdesign_params 2 7 3 1 = (2, 7, 7, 3, 3, 1) := by
  have hgen : ∀ t v k L : ℕ, tdesign_params t v k L =
      (t, v, L * Nat.choose v t / Nat.choose k t,
        L * Nat.choose (v - 1) (t - 1) / Nat.choose (k - 1) (t - 1), k, L) := by
    intro t v k L
    simp only [tdesign_params, binomial, int_floor_nat_div]
  refine ⟨hgen, ?_⟩
  rw [hgen]
  decide

/-- C4: `projective_plane(n)` raises `EmptySetError` exactly when `n ≤ 1`, or
`n = 10`, or `n % 4 ∈ {1,2}` and `n` is not a sum of two integer squares;
raises `NotImplementedError` exactly when none of those hold and `n` is not a
prime power; and otherwise returns the Desarguesian plane of order `n`.  In
particular orders 2..5 give a plane, 6, 10, 14 give `EmptySetError` and 12
gives `NotImplementedError`. -/
theorem projective_plane_cases :
    (∀ n : ℤ,
      (projective_plane n = .emptySetError ↔
        n ≤ 1 ∨ n = 10 ∨ ((n % 4 = 1 ∨ n % 4 = 2) ∧ ¬ ∃ a b : ℤ, a ^ 2 + b ^ 2 = n)) ∧
      (projective_plane n = .notImplementedError ↔
        ¬ (n ≤ 1 ∨ n = 10 ∨ ((n % 4 = 1 ∨ n % 4 = 2) ∧ ¬ ∃ a b : ℤ, a ^ 2 + b ^ 2 = n)) ∧
          ¬ IsPrimePow n.toNat) ∧
      (projective_plane n = .desarguesian n ↔
        ¬ (n ≤ 1 ∨ n = 10 ∨ ((n % 4 = 1 ∨ n % 4 = 2) ∧ ¬ ∃ a b : ℤ, a ^ 2 + b ^ 2 = n)) ∧
          IsPrimePow n.toNat)) ∧
    projective_plane 2 = .desarguesian 2 ∧
    projective_plane 3 = .desarguesian 3 ∧
    projective_plane 4 = .desarguesian 4 ∧
    projective_plane 5 = .desarguesian 5 ∧
    projective_plane 6 = .emptySetError ∧
    projective_plane 10 = .emptySetError ∧
    projective_plane 14 = .emptySetError ∧
    projective_plane 12 = .notImplementedError := by
  refine ⟨fun n => ?_, by decide, by decide, by decide, by decide, by decide,
    by decide, by decide, by decide⟩
  have hpp : ∀ m : ℕ, is_prime_power m = false ↔ ¬ IsPrimePow m := by
    intro m
    rw [← is_prime_power_iff]
    cases is_prime_power m <;> simp
  by_cases h1 : n ≤ 1
  · have hpe : projective_plane n = .emptySetError := by simp [projective_plane, h1]
    refine ⟨iff_of_true hpe (Or.inl h1), iff_of_false (by rw [hpe]; simp) ?_,
      iff_of_false (by rw [hpe]; simp) ?_⟩
    · exact fun hc => hc.1 (Or.inl h1)
    · exact fun hc => hc.1 (Or.inl h1)
  · have hn0 : ((n.toNat : ℤ)) = n := Int.toNat_of_nonneg (by omega)
    have hts2 : two_squares_ok n.toNat = true ↔ ∃ a b : ℤ, a ^ 2 + b ^ 2 = n := by
      rw [two_squares_ok_iff, hn0]
    have hts : two_squares_ok n.toNat = false ↔ ¬ ∃ a b : ℤ, a ^ 2 + b ^ 2 = n := by
      rw [← hts2]
      cases two_squares_ok n.toNat <;> simp
    by_cases h2 : n = 10
    · have hpe : projective_plane n = .emptySetError := by
        simp [projective_plane, h1, h2]
      refine ⟨iff_of_true hpe (Or.inr (Or.inl h2)),
        iff_of_false (by rw [hpe]; simp) ?_, iff_of_false (by rw [hpe]; simp) ?_⟩
      · exact fun hc => hc.1 (Or.inr (Or.inl h2))
      · exact fun hc => hc.1 (Or.inr (Or.inl h2))
    · by_cases h3 : (n % 4 = 1 ∨ n % 4 = 2) ∧ two_squares_ok n.toNat = false
      · have hpe : projective_plane n = .emptySetError := by
          simp only [projective_plane, if_neg h1, if_neg h2, if_pos h3]
        have hA : n ≤ 1 ∨ n = 10 ∨
            ((n % 4 = 1 ∨ n % 4 = 2) ∧ ¬ ∃ a b : ℤ, a ^ 2 + b ^ 2 = n) :=
          Or.inr (Or.inr ⟨h3.1, hts.1 h3.2⟩)
        refine ⟨iff_of_true hpe hA, iff_of_false (by rw [hpe]; simp) ?_,
          iff_of_false (by rw [hpe]; simp) ?_⟩
        · exact fun hc => hc.1 hA
        · exact fun hc => hc.1 hA
      · have hnA : ¬ (n ≤ 1 ∨ n = 10 ∨
            ((n % 4 = 1 ∨ n % 4 = 2) ∧ ¬ ∃ a b : ℤ, a ^ 2 + b ^ 2 = n)) := by
          rintro (hc | hc | hc)
          · exact h1 hc
          · exact h2 hc
          · exact h3 ⟨hc.1, hts.2 hc.2⟩
        by_cases h4 : is_prime_power n.toNat = false
        · have hpe : projective_plane n = .notImplementedError := by
            simp only [projective_plane, if_neg h1, if_neg h2, if_neg h3, if_pos h4]
          refine ⟨iff_of_false (by rw [hpe]; simp) (fun hc => hnA hc),
            iff_of_true hpe ⟨hnA, (hpp n.toNat).1 h4⟩,
            iff_of_false (by rw [hpe]; simp) (fun hc => (hpp n.toNat).1 h4 hc.2)⟩
        · have h4' : IsPrimePow n.toNat := by
            rw [← is_prime_power_iff]
            cases hb : is_prime_power n.toNat
            · exact absurd hb h4
            · rfl
          have hpe : projective_plane n = .desarguesian n := by
            simp only [projective_plane, if_neg h1, if_neg h2, if_neg h3, if_neg h4]
          refine ⟨iff_of_false (by rw [hpe]; simp) (fun hc => hnA hc),
            iff_of_false (by rw [hpe]; simp) (fun hc => hc.2 h4'),
            iff_of_true hpe ⟨hnA, h4'⟩⟩

/-- C7 counterexample: `ProjectiveGeometryDesign` does not coerce a bare
integer: with `F = 4` (a valid prime power) the call `F.order()` raises
`AttributeError` instead of proceeding with `GF(4)`. -/
theorem PGD_integer_field_arg_fails :
    PGD_field_order (.int 4) = .error .attributeError ∧
    IsPrimePow 4 ∧
    PGD_field_order (.int 4) ≠ .error .invalidFieldOrder ∧
    ∀ q : ℕ, PGD_field_order (.int 4) ≠ .ok q := by
  refine ⟨rfl, (is_prime_power_iff 4).1 (by decide), by decide,
    fun q => by simp [PGD_field_order]⟩

/-- C7 (amended): `AffineGeometryDesign` accepts a field object or a bare
integer, coercing the integer into the field of that order and failing with
the `InvalidFieldOrder` error when the integer is not a prime power;
`ProjectiveGeometryDesign` accepts only a field object and fails with an
`AttributeError` (not `InvalidFieldOrder`) on any bare integer. -/
theorem geometry_design_field_arg :
    (∀ n : ℕ, IsPrimePow n → AGD_field_setup (.int n) = .ok n) ∧
    (∀ n : ℕ, ¬ IsPrimePow n → AGD_field_setup (.int n) = .error .invalidFieldOrder) ∧
    (∀ q : ℕ, IsPrimePow q → AGD_field_setup (.fld q) = .ok q) ∧
    (∀ q : ℕ, PGD_field_order (.fld q) = .ok q) ∧
    (∀ n : ℕ, PGD_field_order (.int n) = .error .attributeError) := by
  have hyes : ∀ m : ℕ, IsPrimePow m → build_field m = .ok m := by
    intro m h
    simp [build_field, (is_prime_power_iff m).2 h]
  have hno : ∀ m : ℕ, ¬ IsPrimePow m → build_field m = .error .invalidFieldOrder := by
    intro m h
    have : is_prime_power m = false := by
      cases hb : is_prime_power m
      · rfl
      · exact absurd ((is_prime_power_iff m).1 hb) h
    simp [build_field, this]
  refine ⟨fun n h => ?_, fun n h => ?_, fun q h => ?_, fun q => rfl, fun n => rfl⟩
  · show ((build_field n).bind fun _ => Except.ok n) = Except.ok n
    rw [hyes n h]
    rfl
  · show ((build_field n).bind fun _ => Except.ok n) = Except.error .invalidFieldOrder
    rw [hno n h]
    rfl
  · show ((build_field q).bind fun _ => Except.ok q) = Except.ok q
    rw [hyes q h]
    rfl

/-- Witness for `geometry_design_field_arg` at the concrete orders 4 (a prime
power) and 6 (not a prime power). -/
theorem geometry_design_field_arg_witness :
    AGD_field_setup (.int 4) = .ok 4 ∧
    AGD_field_setup (.int 6) = .error .invalidFieldOrder := by
  constructor
  · exact geometry_design_field_arg.1 4 ((is_prime_power_iff 4).1 (by decide))
  · refine geometry_design_field_arg.2.1 6 fun h => ?_
    exact absurd ((is_prime_power_iff 6).2 h) (by decide)

/-- C8 counterexample: `OA_to_projective_plane` accepts rows of inconsistent
widths; on `[[0,0,0],[0,1,1],[1,0,1],[1,1]]` (a 4-row input with a short last
row) it returns a design rather than failing. -/
theorem OA_to_projective_plane_accepts_ragged_rows :
    (∃ r1 ∈ [[0,0,0],[0,1,1],[1,0,1],([1,1] : List ℕ)],
      ∃ r2 ∈ [[0,0,0],[0,1,1],[1,0,1],([1,1] : List ℕ)], r1.length ≠ r2.length) ∧
    OA_to_projective_plane [[0,0,0],[0,1,1],[1,0,1],[1,1]] true =
      .ok (7, [[0,1,2],[0,4,5],[3,1,5],[3,4],[0,1,6],[2,3,6],[4,5,6]]) := by
  decide

/-- C8 (amended): with `n` read off the first row (`n = len(OA[0]) - 1`),
`OA_to_projective_plane` fails exactly when the number of rows differs from
`n^2` — row widths are not checked — and on success returns the design on
`n^2+n+1` points whose blocks are one transversal block
`[i + (n+1)·l[i] : i < len(l)]` per OA row `l` followed by the `n+1` lines
`range(i·n, (i+1)·n) ∪ \x7bn^2+n\x7d`. -/
theorem OA_to_projective_plane_spec (OA : List (List ℕ)) (r0 : List ℕ)
    (rest : List (List ℕ)) (check : Bool) (hOA : OA = r0 :: rest) :
    (OA_to_projective_plane OA check = .error .assertionError ↔
      OA.length ≠ (r0.length - 1) ^ 2) ∧
    (OA.length = (r0.length - 1) ^ 2 →
      OA_to_projective_plane OA check =
        .ok ((r0.length - 1) ^ 2 + (r0.length - 1) + 1,
          OA.map (fun l => l.enum.map fun p => p.1 + ((r0.length - 1) + 1) * p.2) ++
            (List.range ((r0.length - 1) + 1)).map
              (fun i => List.range' (i * (r0.length - 1)) (r0.length - 1) ++
                [(r0.length - 1) ^ 2 + (r0.length - 1)]))) := by
  subst hOA
  simp only [OA_to_projective_plane]
  by_cases h : (r0 :: rest).length = (r0.length - 1) ^ 2
  · simp [h]
  · simp [h]

/-- Witness for `OA_to_projective_plane_spec` on the order-2 orthogonal array
`[[0,0,0],[0,1,1],[1,0,1],[1,1,0]]`. -/
theorem OA_to_projective_plane_spec_witness :
    OA_to_projective_plane [[0,0,0],[0,1,1],[1,0,1],[1,1,0]] true =
      .ok (7, [[0,1,2],[0,4,5],[3,1,5],[3,4,2],[0,1,6],[2,3,6],[4,5,6]]) := by
  have h := (OA_to_projective_plane_spec [[0,0,0],[0,1,1],[1,0,1],[1,1,0]] [0,0,0]
    [[0,1,1],[1,0,1],[1,1,0]] true rfl).2 (by decide)
  rw [h]
  decide

/-! ### DesarguesianProjectivePlaneDesign (lines 158-221) -/


section FieldEnumeration

variable {n : ℕ} {K : Type}

/-- relabel dict -/
def relabel (e : K ≃ Fin n) (x : K) : ℕ := (e x).val

/-- iteration order over K -/
def field_elems (e : K ≃ Fin n) : List K := (List.finRange n).map e.symm

def affLabel (e : K ≃ Fin n) (x y : K) : ℕ := relabel e x + n * relabel e y

lemma relabel_lt (e : K ≃ Fin n) (x : K) : relabel e x < n := (e x).isLt

lemma relabel_injective (e : K ≃ Fin n) {x y : K} (h : relabel e x = relabel e y) : x = y :=
  e.injective (Fin.ext h)

lemma mem_field_elems (e : K ≃ Fin n) (x : K) : x ∈ field_elems e :=
  List.mem_map.2 ⟨e x, List.mem_finRange _, e.symm_apply_apply x⟩

lemma field_elems_length (e : K ≃ Fin n) : (field_elems e).length = n := by
  simp [field_elems]

lemma field_elems_nodup (e : K ≃ Fin n) : (field_elems e).Nodup :=
  (List.nodup_finRange n).map e.symm.injective

lemma affLabel_lt (e : K ≃ Fin n) (x y : K) : affLabel e x y < n ^ 2 := by
  have hx := relabel_lt e x
  have hy := relabel_lt e y
  simp only [affLabel, pow_two]
  nlinarith

lemma affLabel_inj (e : K ≃ Fin n) {x y x' y' : K}
    (h : affLabel e x y = affLabel e x' y') : x = x' ∧ y = y' := by
  have hx := relabel_lt e x
  have hx' := relabel_lt e x'
  have hn : 0 < n := by omega
  simp only [affLabel] at h
  have hmod : relabel e x = relabel e x' := by
    have h1 : (relabel e x + relabel e y * n) % n = (relabel e x' + relabel e y' * n) % n := by
      rw [mul_comm (relabel e y) n, mul_comm (relabel e y') n, h]
    rwa [Nat.add_mul_mod_self_right, Nat.add_mul_mod_self_right,
      Nat.mod_eq_of_lt hx, Nat.mod_eq_of_lt hx'] at h1
  have hdiv : relabel e y = relabel e y' := by
    have h1 : (relabel e x + relabel e y * n) / n = (relabel e x' + relabel e y' * n) / n := by
      rw [mul_comm (relabel e y) n, mul_comm (relabel e y') n, h]
    rwa [Nat.add_mul_div_right _ _ hn, Nat.add_mul_div_right _ _ hn,
      Nat.div_eq_of_lt hx, Nat.div_eq_of_lt hx', Nat.zero_add, Nat.zero_add] at h1
  exact ⟨relabel_injective e hmod, relabel_injective e hdiv⟩

def line_horizontal (e : K ≃ Fin n) (a : K) : List ℕ :=
  ((field_elems e).map fun x => relabel e x + n * relabel e a) ++ [n ^ 2 + n]

def line_infinity (n : ℕ) : List ℕ := (List.range (n + 1)).map fun i => n ^ 2 + i

lemma mem_line_horizontal (e : K ≃ Fin n) (a : K) (m : ℕ) :
    m ∈ line_horizontal e a ↔
      (∃ x : K, m = affLabel e x a) ∨ m = n ^ 2 + n := by
  simp only [line_horizontal, List.mem_append, List.mem_map, List.mem_singleton, affLabel]
  constructor
  · rintro (⟨x, _, rfl⟩ | rfl)
    · exact Or.inl ⟨x, rfl⟩
    · exact Or.inr rfl
  · rintro (⟨x, rfl⟩ | rfl)
    · exact Or.inl ⟨x, mem_field_elems e x, rfl⟩
    · exact Or.inr rfl

lemma mem_line_infinity (n m : ℕ) :
    m ∈ line_infinity n ↔ ∃ i < n + 1, m = n ^ 2 + i := by
  simp only [line_infinity, List.mem_map, List.mem_range]
  constructor
  · rintro ⟨i, hi, rfl⟩
    exact ⟨i, hi, rfl⟩
  · rintro ⟨i, hi, rfl⟩
    exact ⟨i, hi, rfl⟩

lemma aff_ne_slope_inf (e : K ≃ Fin n) (x y s : K) :
    affLabel e x y ≠ n ^ 2 + relabel e s := by
  have := affLabel_lt e x y
  omega

lemma aff_ne_horiz_inf (e : K ≃ Fin n) (x y : K) :
    affLabel e x y ≠ n ^ 2 + n := by
  have := affLabel_lt e x y
  omega

lemma inter_horiz_horiz (e : K ≃ Fin n) (b b' : K) (h : b ≠ b') :
    (line_horizontal e b).toFinset ∩ (line_horizontal e b').toFinset =
      {n ^ 2 + n} := by
  ext m
  simp only [Finset.mem_inter, List.mem_toFinset, mem_line_horizontal, Finset.mem_singleton]
  constructor
  · rintro ⟨⟨x, rfl⟩ | rfl, ⟨x', hx'⟩ | h2⟩
    · obtain ⟨-, hbb⟩ := affLabel_inj e hx'
      exact absurd hbb h
    · exact h2
    · exact absurd hx'.symm (aff_ne_horiz_inf e x' b')
    · rfl
  · rintro rfl
    exact ⟨Or.inr rfl, Or.inr rfl⟩

lemma inter_horiz_infinity (e : K ≃ Fin n) (b : K) :
    (line_horizontal e b).toFinset ∩ (line_infinity n).toFinset = {n ^ 2 + n} := by
  ext m
  simp only [Finset.mem_inter, List.mem_toFinset, mem_line_horizontal, mem_line_infinity,
    Finset.mem_singleton]
  constructor
  · rintro ⟨⟨x, rfl⟩ | rfl, ⟨i, hi, hmi⟩⟩
    · exact absurd hmi (by have := affLabel_lt e x b; omega)
    · rfl
  · rintro rfl
    exact ⟨Or.inr rfl, ⟨n, by omega, rfl⟩⟩

lemma line_horizontal_nodup (e : K ≃ Fin n) (b : K) : (line_horizontal e b).Nodup := by
  refine List.Nodup.append ?_ (List.nodup_singleton _) ?_
  · exact List.Nodup.map (fun x x' hxx => (affLabel_inj e hxx).1) (field_elems_nodup e)
  · intro m hm hm'
    obtain ⟨x, -, rfl⟩ := List.mem_map.1 hm
    rw [List.mem_singleton] at hm'
    exact aff_ne_horiz_inf e _ _ hm'

lemma line_infinity_nodup (n : ℕ) : (line_infinity n).Nodup :=
  (List.nodup_range _).map fun i j hij => by omega

lemma line_horizontal_length (e : K ≃ Fin n) (b : K) :
    (line_horizontal e b).length = n + 1 := by
  simp [line_horizontal, field_elems_length]

lemma line_infinity_length (n : ℕ) : (line_infinity n).length = n + 1 := by
  simp [line_infinity]

end FieldEnumeration

section DesarguesianPlane

variable {n : ℕ} {K : Type} [Field K]

def line_slope (e : K ≃ Fin n) (s a : K) : List ℕ :=
  ((field_elems e).map fun y => relabel e (s * y + a) + n * relabel e y) ++
    [n ^ 2 + relabel e s]

def desarguesian_blcks (e : K ≃ Fin n) : List (List ℕ) :=
  ((field_elems e).flatMap fun s => (field_elems e).map fun a => line_slope e s a) ++
    ((field_elems e).map fun a => line_horizontal e a) ++ [line_infinity n]

def DesarguesianProjectivePlaneDesign (e : K ≃ Fin n) : ℕ × List (List ℕ) :=
  (n ^ 2 + n + 1, desarguesian_blcks e)

lemma mem_line_slope (e : K ≃ Fin n) (s a : K) (m : ℕ) :
    m ∈ line_slope e s a ↔
      (∃ y : K, m = affLabel e (s * y + a) y) ∨ m = n ^ 2 + relabel e s := by
  simp only [line_slope, List.mem_append, List.mem_map, List.mem_singleton, affLabel]
  constructor
  · rintro (⟨y, _, rfl⟩ | rfl)
    · exact Or.inl ⟨y, rfl⟩
    · exact Or.inr rfl
  · rintro (⟨y, rfl⟩ | rfl)
    · exact Or.inl ⟨y, mem_field_elems e y, rfl⟩
    · exact Or.inr rfl

lemma inter_slope_slope_same (e : K ≃ Fin n) (s a a' : K) (h : a ≠ a') :
    (line_slope e s a).toFinset ∩ (line_slope e s a').toFinset =
      {n ^ 2 + relabel e s} := by
  ext m
  simp only [Finset.mem_inter, List.mem_toFinset, mem_line_slope, Finset.mem_singleton]
  constructor
  · rintro ⟨⟨y, rfl⟩ | rfl, ⟨y', hy'⟩ | h2⟩
    · obtain ⟨hxx, rfl⟩ := affLabel_inj e hy'
      exact absurd (add_left_cancel hxx) h
    · exact h2
    · exact absurd hy'.symm (aff_ne_slope_inf e _ _ s)
    · rfl
  · rintro rfl
    exact ⟨Or.inr rfl, Or.inr rfl⟩

lemma inter_slope_slope_diff (e : K ≃ Fin n) (s a s' a' : K) (h : s ≠ s') :
    (line_slope e s a).toFinset ∩ (line_slope e s' a').toFinset =
      {affLabel e (s * ((a' - a) / (s - s')) + a) ((a' - a) / (s - s'))} := by
  have hss : s - s' ≠ 0 := sub_ne_zero.2 h
  have hcancel : (s - s') * ((a' - a) / (s - s')) = a' - a := by
    rw [mul_comm]
    exact div_mul_cancel₀ _ hss
  have hkey : s * ((a' - a) / (s - s')) + a = s' * ((a' - a) / (s - s')) + a' := by
    linear_combination hcancel
  ext m
  simp only [Finset.mem_inter, List.mem_toFinset, mem_line_slope, Finset.mem_singleton]
  constructor
  · rintro ⟨⟨y, rfl⟩ | rfl, ⟨y', hy'⟩ | h2⟩
    · obtain ⟨hxx, rfl⟩ := affLabel_inj e hy'
      have hy0 : y = (a' - a) / (s - s') := by
        refine eq_div_of_mul_eq hss ?_
        linear_combination hxx
      rw [hy0]
    · exact absurd h2 (aff_ne_slope_inf e _ _ s')
    · exact absurd hy'.symm (aff_ne_slope_inf e _ _ s)
    · have hr : relabel e s = relabel e s' := by omega
      exact absurd (relabel_injective e hr) h
  · rintro rfl
    refine ⟨Or.inl ⟨_, rfl⟩, Or.inl ⟨(a' - a) / (s - s'), ?_⟩⟩
    rw [hkey]

lemma inter_slope_horiz (e : K ≃ Fin n) (s a b : K) :
    (line_slope e s a).toFinset ∩ (line_horizontal e b).toFinset =
      {affLabel e (s * b + a) b} := by
  ext m
  simp only [Finset.mem_inter, List.mem_toFinset, mem_line_slope, mem_line_horizontal,
    Finset.mem_singleton]
  constructor
  · rintro ⟨⟨y, rfl⟩ | rfl, ⟨x, hx⟩ | h2⟩
    · obtain ⟨h1, rfl⟩ := affLabel_inj e hx
      rfl
    · exact absurd h2 (aff_ne_horiz_inf e _ _)
    · exact absurd hx.symm (aff_ne_slope_inf e x b s)
    · have := relabel_lt e s
      omega
  · rintro rfl
    exact ⟨Or.inl ⟨b, rfl⟩, Or.inl ⟨s * b + a, rfl⟩⟩

lemma inter_slope_infinity (e : K ≃ Fin n) (s a : K) :
    (line_slope e s a).toFinset ∩ (line_infinity n).toFinset =
      {n ^ 2 + relabel e s} := by
  ext m
  simp only [Finset.mem_inter, List.mem_toFinset, mem_line_slope, mem_line_infinity,
    Finset.mem_singleton]
  constructor
  · rintro ⟨⟨y, rfl⟩ | rfl, ⟨i, hi, hmi⟩⟩
    · exact absurd hmi (by have := affLabel_lt e (s * y + a) y; omega)
    · rfl
  · rintro rfl
    exact ⟨Or.inr rfl, ⟨relabel e s, by have := relabel_lt e s; omega, rfl⟩⟩

lemma line_slope_nodup (e : K ≃ Fin n) (s a : K) : (line_slope e s a).Nodup := by
  refine List.Nodup.append ?_ (List.nodup_singleton _) ?_
  · exact List.Nodup.map (fun y y' hyy => (affLabel_inj e hyy).2) (field_elems_nodup e)
  · intro m hm hm'
    obtain ⟨y, -, rfl⟩ := List.mem_map.1 hm
    rw [List.mem_singleton] at hm'
    exact aff_ne_slope_inf e _ _ s hm'

lemma line_slope_length (e : K ≃ Fin n) (s a : K) : (line_slope e s a).length = n + 1 := by
  simp [line_slope, field_elems_length]

lemma desarguesian_blcks_length (e : K ≃ Fin n) :
    (desarguesian_blcks e).length = n ^ 2 + n + 1 := by
  simp only [desarguesian_blcks, List.length_append, List.length_flatMap, List.length_map,
    List.length_singleton, Function.comp_def, field_elems_length, List.map_const',
    List.sum_replicate, smul_eq_mul, pow_two]

lemma mem_desarguesian_blcks (e : K ≃ Fin n) (B : List ℕ) :
    B ∈ desarguesian_blcks e ↔
      (∃ s a : K, B = line_slope e s a) ∨ (∃ b : K, B = line_horizontal e b) ∨
        B = line_infinity n := by
  simp only [desarguesian_blcks, List.mem_append, List.mem_flatMap, List.mem_map,
    List.mem_singleton]
  constructor
  · rintro ((⟨s, -, a, -, rfl⟩ | ⟨b, -, rfl⟩) | rfl)
    · exact Or.inl ⟨s, a, rfl⟩
    · exact Or.inr (Or.inl ⟨b, rfl⟩)
    · exact Or.inr (Or.inr rfl)
  · rintro (⟨s, a, rfl⟩ | ⟨b, rfl⟩ | rfl)
    · exact Or.inl (Or.inl ⟨s, mem_field_elems e s, a, mem_field_elems e a, rfl⟩)
    · exact Or.inl (Or.inr ⟨b, mem_field_elems e b, rfl⟩)
    · exact Or.inr rfl

lemma desarguesian_block_size (e : K ≃ Fin n) (B : List ℕ)
    (hB : B ∈ desarguesian_blcks e) : B.length = n + 1 ∧ B.toFinset.card = n + 1 := by
  rcases (mem_desarguesian_blcks e B).1 hB with ⟨s, a, rfl⟩ | ⟨b, rfl⟩ | rfl
  · exact ⟨line_slope_length e s a,
      by rw [List.toFinset_card_of_nodup (line_slope_nodup e s a), line_slope_length]⟩
  · exact ⟨line_horizontal_length e b,
      by rw [List.toFinset_card_of_nodup (line_horizontal_nodup e b), line_horizontal_length]⟩
  · exact ⟨line_infinity_length n,
      by rw [List.toFinset_card_of_nodup (line_infinity_nodup n), line_infinity_length]⟩

lemma pairwise_desarguesian (e : K ≃ Fin n) :
    List.Pairwise (fun B1 B2 => (B1.toFinset ∩ B2.toFinset).card = 1)
      (desarguesian_blcks e) := by
  have hslope : List.Pairwise (fun B1 B2 => (B1.toFinset ∩ B2.toFinset).card = 1)
      ((field_elems e).flatMap fun s => (field_elems e).map fun a => line_slope e s a) := by
    rw [List.flatMap_def]
    refine List.pairwise_flatten.2 ⟨?_, ?_⟩
    · intro l hl
      obtain ⟨s, -, rfl⟩ := List.mem_map.1 hl
      refine List.pairwise_map.2 ((field_elems_nodup e).imp ?_)
      intro a a' haa
      show ((line_slope e s a).toFinset ∩ (line_slope e s a').toFinset).card = 1
      rw [inter_slope_slope_same e s a a' haa]
      exact Finset.card_singleton _
    · refine List.pairwise_map.2 ((field_elems_nodup e).imp ?_)
      intro s s' hss
      intro x hx y hy
      obtain ⟨a, -, rfl⟩ := List.mem_map.1 hx
      obtain ⟨a', -, rfl⟩ := List.mem_map.1 hy
      show ((line_slope e s a).toFinset ∩ (line_slope e s' a').toFinset).card = 1
      rw [inter_slope_slope_diff e s a s' a' hss]
      exact Finset.card_singleton _
  have hhoriz : List.Pairwise (fun B1 B2 => (B1.toFinset ∩ B2.toFinset).card = 1)
      ((field_elems e).map fun b => line_horizontal e b) := by
    refine List.pairwise_map.2 ((field_elems_nodup e).imp ?_)
    intro b b' hbb
    show ((line_horizontal e b).toFinset ∩ (line_horizontal e b').toFinset).card = 1
    rw [inter_horiz_horiz e b b' hbb]
    exact Finset.card_singleton _
  have hcross1 : ∀ B1 ∈ (field_elems e).flatMap
      (fun s => (field_elems e).map fun a => line_slope e s a),
      ∀ B2 ∈ ((field_elems e).map fun b => line_horizontal e b) ++ [line_infinity n],
        (B1.toFinset ∩ B2.toFinset).card = 1 := by
    intro B1 hB1 B2 hB2
    obtain ⟨s, -, hB1m⟩ := List.mem_flatMap.1 hB1
    obtain ⟨a, -, rfl⟩ := List.mem_map.1 hB1m
    rcases List.mem_append.1 hB2 with hB2 | hB2
    · obtain ⟨b, -, rfl⟩ := List.mem_map.1 hB2
      rw [inter_slope_horiz e s a b]
      exact Finset.card_singleton _
    · rw [List.mem_singleton] at hB2
      subst hB2
      rw [inter_slope_infinity e s a]
      exact Finset.card_singleton _
  have hcross2 : ∀ B1 ∈ (field_elems e).map (fun b => line_horizontal e b),
      ∀ B2 ∈ [line_infinity n], (B1.toFinset ∩ B2.toFinset).card = 1 := by
    intro B1 hB1 B2 hB2
    obtain ⟨b, -, rfl⟩ := List.mem_map.1 hB1
    rw [List.mem_singleton] at hB2
    subst hB2
    rw [inter_horiz_infinity e b]
    exact Finset.card_singleton _
  refine List.pairwise_append.2 ⟨List.pairwise_append.2 ⟨hslope, hhoriz, ?_⟩,
    List.pairwise_singleton _ _, ?_⟩
  · intro B1 h1 B2 h2
    exact hcross1 B1 h1 B2 (List.mem_append.2 (Or.inl h2))
  · intro B1 h1 B2 h2
    rcases List.mem_append.1 h1 with h1 | h1
    · exact hcross1 B1 h1 B2 (List.mem_append.2 (Or.inr h2))
    · exact hcross2 B1 h1 B2 h2

/-- C1: for a finite field of order `n` presented by an enumeration
`e : K ≃ Fin n` (such a field exists exactly when `n` is a prime power),
`DesarguesianProjectivePlaneDesign` returns a design with `n^2+n+1` points,
`n^2+n+1` blocks, every block listing exactly `n+1` distinct point labels,
and every pair of distinct blocks intersecting in exactly one point. -/
theorem DesarguesianProjectivePlaneDesign_correct (n : ℕ) (K : Type) [Field K]
    (e : K ≃ Fin n) :
    (DesarguesianProjectivePlaneDesign e).1 = n ^ 2 + n + 1 ∧
    (DesarguesianProjectivePlaneDesign e).2.length = n ^ 2 + n + 1 ∧
    (∀ B ∈ (DesarguesianProjectivePlaneDesign e).2,
      B.length = n + 1 ∧ B.toFinset.card = n + 1) ∧
    (∀ i j : ℕ, i < n ^ 2 + n + 1 → j < n ^ 2 + n + 1 → i ≠ j →
      ((((DesarguesianProjectivePlaneDesign e).2.getD i []).toFinset ∩
        ((DesarguesianProjectivePlaneDesign e).2.getD j []).toFinset).card = 1)) := by
  refine ⟨rfl, desarguesian_blcks_length e,
    fun B hB => desarguesian_block_size e B hB, ?_⟩
  intro i j hi hj hij
  have hlen := desarguesian_blcks_length e
  have hi' : i < (desarguesian_blcks e).length := by omega
  have hj' : j < (desarguesian_blcks e).length := by omega
  have hpair := pairwise_desarguesian e
  rw [List.pairwise_iff_get] at hpair
  rcases Nat.lt_or_ge i j with hlt | hge
  · have hp := hpair ⟨i, hi'⟩ ⟨j, hj'⟩ (Fin.mk_lt_mk.mpr hlt)
    rwa [List.get_eq_getElem, List.get_eq_getElem, ← List.getD_eq_getElem _ [] hi',
      ← List.getD_eq_getElem _ [] hj'] at hp
  · have hlt : j < i := by omega
    have hp := hpair ⟨j, hj'⟩ ⟨i, hi'⟩ (Fin.mk_lt_mk.mpr hlt)
    rw [List.get_eq_getElem, List.get_eq_getElem, ← List.getD_eq_getElem _ [] hj',
      ← List.getD_eq_getElem _ [] hi'] at hp
    rwa [Finset.inter_comm] at hp

end DesarguesianPlane

/-- The canonical enumeration of the field with two elements. -/
def e2 : ZMod 2 ≃ Fin 2 := Equiv.refl (Fin 2)

/-- Witness for `DesarguesianProjectivePlaneDesign_correct`: the Fano plane,
with the first two blocks meeting in exactly one point, and the concrete
block list produced for order 2. -/
theorem DesarguesianProjectivePlaneDesign_correct_witness :
    ((((DesarguesianProjectivePlaneDesign e2).2.getD 0 []).toFinset ∩
      ((DesarguesianProjectivePlaneDesign e2).2.getD 1 []).toFinset).card = 1) ∧
    (DesarguesianProjectivePlaneDesign e2).2 =
      [[0, 2, 4], [1, 3, 4], [0, 3, 5], [1, 2, 5], [0, 1, 6], [2, 3, 6], [4, 5, 6]] := by
  refine ⟨(DesarguesianProjectivePlaneDesign_correct 2 (ZMod 2) e2).2.2.2 0 1
    (by omega) (by omega) (by omega), ?_⟩
  decide

/-! ### projective_plane_to_OA (lines 223-303) -/


/-- The key-value pairs inserted (in order) into the `relabel` dictionary of
line 295: for each pencil line `l` at index `j` and each point `x` at index
`i` within `l`, the binding `x ↦ (j, i)`. -/
def dict_entries (L : List (List ℕ)) : List (ℕ × (ℕ × ℕ)) :=
  L.enum.flatMap fun jl => jl.2.enum.map fun ix => (ix.2, (jl.1, ix.1))

/-- Python dict lookup: the last binding for a key wins. -/
def dict_get (entries : List (ℕ × (ℕ × ℕ))) (x : ℕ) : Option (ℕ × ℕ) :=
  (entries.reverse.find? fun kv => kv.1 == x).map Prod.snd

/-- `relabel[x]` of line 296: `none` models a Python `KeyError`. -/
def pencil_relabel (L : List (List ℕ)) (x : ℕ) : Option (ℕ × ℕ) :=
  dict_get (dict_entries L) x

/-- Lexicographic comparison of pairs: Python's `sorted` on 2-tuples. -/
def pairLe (p q : ℕ × ℕ) : Prop :=
  p.1 < q.1 ∨ (p.1 = q.1 ∧ p.2 ≤ q.2)

instance pairLeDec : DecidableRel pairLe := fun p q =>
  inferInstanceAs (Decidable (p.1 < q.1 ∨ (p.1 = q.1 ∧ p.2 ≤ q.2)))

instance pairLeTotal : IsTotal (ℕ × ℕ) pairLe :=
  ⟨fun p q => by simp only [pairLe]; omega⟩

instance pairLeTrans : IsTrans (ℕ × ℕ) pairLe :=
  ⟨fun p q r hpq hqr => by simp only [pairLe] at *; omega⟩

/-- The blocks through `pt`, in block order (the `L`-collection loop of
lines 282-287). -/
def pencilBlocks (bl : List (List ℕ)) (pt : ℕ) : List (List ℕ) :=
  bl.filter fun blk => decide (pt ∈ blk)

/-- The pencil lines: blocks through `pt` with `pt` removed. -/
def pencilLines (bl : List (List ℕ)) (pt : ℕ) : List (List ℕ) :=
  (pencilBlocks bl pt).map fun blk => blk.erase pt

/-- The blocks avoiding `pt` (line 289): the future orthogonal-array rows. -/
def rowBlocks (bl : List (List ℕ)) (pt : ℕ) : List (List ℕ) :=
  bl.filter fun blk => decide (pt ∉ blk)

/-- Lines 296-297: relabel the points of a block, sort the pairs
lexicographically and keep the within-line positions. -/
def makeRow (L : List (List ℕ)) (l : List ℕ) : List ℕ :=
  (List.insertionSort pairLe (l.map fun x => (pencil_relabel L x).getD (0, 0))).map
    Prod.snd

/-- Modelled from the spec: `is_orthogonal_array(OA, k, n, t)` (an import
from the external `orthogonal_arrays` module) decides strength-`2`
orthogonality: `n^2` rows of width `k`, symbols below `n`, every ordered
symbol pair appearing in exactly one row for every pair of distinct columns. -/
def is_orthogonal_array (OA : List (List ℕ)) (k n _t : ℕ) : Bool :=
  decide (OA.length = n ^ 2 ∧
    (∀ l ∈ OA, l.length = k ∧ ∀ s ∈ l, s < n) ∧
    (∀ c1 < k, ∀ c2 < k, c1 ≠ c2 → ∀ s1 < n, ∀ s2 < n,
      (OA.filter fun l =>
        decide ((l.getD c1 0 = s1 ∧ l.getD c2 0 = s2))).length = 1))

/-- Embedding of `projective_plane_to_OA(pplane, pt, check)` (lines 223-303).
`n` is `len(pplane.blcks[0]) - 1` (empty block list: `IndexError`); the
asserts of lines 274, 283 and 291 raise `AssertionError`; `pt` defaults to
`n^2+n`; `L` collects the blocks through `pt` with `pt` removed (in block
order) and the remaining blocks are the future rows; a point of a row that
lies in no pencil line raises `KeyError` at the `relabel[x]` lookup of line
296; each row is the list of within-line positions of its points sorted by
pencil-line index.  The `check` of lines 299-301 calls
`is_orthogonal_array` and discards the result. -/
def projective_plane_to_OA (pplane : ℕ × List (List ℕ)) (pt? : Option ℕ)
    (check : Bool) : Except PyError (List (List ℕ)) :=
  match pplane.2 with
  | [] => .error .indexError
  | b0 :: _ =>
    let n := b0.length - 1
    if pplane.2.length ≠ n ^ 2 + n + 1 then .error .assertionError
    else if ¬ (∀ blk ∈ pplane.2, blk.length = n + 1) then .error .assertionError
    else
      let pt := pt?.getD (n ^ 2 + n)
      if (pencilLines pplane.2 pt).length ≠ n + 1 then .error .assertionError
      else if ¬ (∀ l ∈ rowBlocks pplane.2 pt, ∀ x ∈ l,
          (pencil_relabel (pencilLines pplane.2 pt) x).isSome) then .error .keyError
      else
        let rows := (rowBlocks pplane.2 pt).map (makeRow (pencilLines pplane.2 pt))
        let _ := is_orthogonal_array rows (n + 1) n 2
        let _ := check
        .ok rows


/-- C10: the `check=True` validation path of `projective_plane_to_OA`
discards the boolean result of `is_orthogonal_array`, so the returned value
is the same as with `check=False` and no error can be raised there; the
concrete conjunct exhibits an input whose computed array fails the
orthogonality test while the function still returns it. -/
theorem projective_plane_to_OA_check_discarded :
    (∀ (pplane : ℕ × List (List ℕ)) (pt? : Option ℕ),
      projective_plane_to_OA pplane pt? true = projective_plane_to_OA pplane pt? false) ∧
    projective_plane_to_OA
      (7, [[0,2,4],[0,2,4],[0,2,4],[0,2,4],[0,1,6],[2,3,6],[4,5,6]]) .none true =
      .ok [[0,0,0],[0,0,0],[0,0,0],[0,0,0]] ∧
    is_orthogonal_array [[0,0,0],[0,0,0],[0,0,0],[0,0,0]] 3 2 2 = false := by
  exact ⟨fun pplane pt? => rfl, by decide, by decide⟩

/-! ### The heap model of the pencil loop (lines 279-291) -/

/-- State of the Python heap during the loop of lines 282-289: `heap` holds
the list objects (the input plane's blocks occupy cells `0..m-1`), and
`Lrefs`, `OArefs` are the references collected into `L` and `OA`. -/
structure LoopState where
  heap : List (List ℕ)
  Lrefs : List ℕ
  OArefs : List ℕ

/-- One loop iteration on block reference `ref`: if `pt ∈ blk`, the slice
`b = blk[:]` allocates a fresh cell with a copy, `b.remove(pt)` mutates that
fresh cell in place, and the new reference joins `L`; otherwise the original
reference is appended to `OA` unchanged. -/
def pencil_step (pt : ℕ) (st : LoopState) (ref : ℕ) : LoopState :=
  let blk := st.heap.getD ref []
  if pt ∈ blk then
    let b := st.heap.length
    let heap1 := st.heap ++ [blk]
    let heap2 := heap1.set b (blk.erase pt)
    ⟨heap2, st.Lrefs ++ [b], st.OArefs⟩
  else
    ⟨st.heap, st.Lrefs, st.OArefs ++ [ref]⟩

/-- The loop of lines 282-289 over all blocks of the input plane. -/
def pencil_loop (pt : ℕ) (blcks : List (List ℕ)) : LoopState :=
  (List.range blcks.length).foldl (pencil_step pt) ⟨blcks, [], []⟩

lemma pencil_step_heap_length (pt : ℕ) (st : LoopState) (ref : ℕ) :
    st.heap.length ≤ (pencil_step pt st ref).heap.length := by
  simp only [pencil_step]
  split
  · simp
  · exact le_rfl

lemma pencil_step_frame (pt : ℕ) (st : LoopState) (ref : ℕ) (i : ℕ)
    (hi : i < st.heap.length) :
    (pencil_step pt st ref).heap.getD i [] = st.heap.getD i [] := by
  simp only [pencil_step]
  split
  · have hlen : i < ((st.heap ++ [st.heap.getD ref []]).set st.heap.length
        ((st.heap.getD ref []).erase pt)).length := by
      simp
      omega
    rw [List.getD_eq_getElem _ _ hlen, List.getD_eq_getElem _ _ hi,
      List.getElem_set_ne (by omega), List.getElem_append_left hi]
  · rfl

lemma pencil_loop_frame (pt : ℕ) (blcks : List (List ℕ)) :
    ∀ i < blcks.length, (pencil_loop pt blcks).heap.getD i [] = blcks.getD i [] := by
  suffices h : ∀ (refs : List ℕ) (st : LoopState), blcks.length ≤ st.heap.length →
      (∀ i < blcks.length, st.heap.getD i [] = blcks.getD i []) →
      blcks.length ≤ (refs.foldl (pencil_step pt) st).heap.length ∧
        ∀ i < blcks.length, (refs.foldl (pencil_step pt) st).heap.getD i [] = blcks.getD i [] by
    intro i hi
    exact (h (List.range blcks.length) ⟨blcks, [], []⟩ le_rfl fun _ _ => rfl).2 i hi
  intro refs
  induction refs with
  | nil => exact fun st h1 h2 => ⟨h1, h2⟩
  | cons r rs ih =>
    intro st h1 h2
    refine ih (pencil_step pt st r) (le_trans h1 (pencil_step_heap_length pt st r)) ?_
    intro i hi
    rw [pencil_step_frame pt st r i (lt_of_lt_of_le hi h1)]
    exact h2 i hi

/-- C9: `projective_plane_to_OA` never mutates its input.  In the explicit
heap model of the only mutating segment (the loop of lines 282-291, where
`b = blk[:]` allocates and `b.remove(pt)` writes), every heap cell holding an
input block is unchanged after the loop; the remaining lines only read the
heap and build fresh lists.  Moreover running the validation (`check=True`)
yields the same design as `check=False`, so calling the constructor twice on
the same inputs yields structurally identical output. -/
theorem projective_plane_to_OA_no_mutation :
    (∀ (blcks : List (List ℕ)) (pt i : ℕ), i < blcks.length →
      (pencil_loop pt blcks).heap.getD i [] = blcks.getD i []) ∧
    (∀ (pplane : ℕ × List (List ℕ)) (pt? : Option ℕ),
      projective_plane_to_OA pplane pt? true = projective_plane_to_OA pplane pt? false) :=
  ⟨fun blcks pt i hi => pencil_loop_frame pt blcks i hi, fun _ _ => rfl⟩

/-- Witness for `projective_plane_to_OA_no_mutation` on the Fano plane with
`pt = 6`: the cell holding the first input block still holds `[0,2,4]` after
the loop. -/
theorem projective_plane_to_OA_no_mutation_witness :
    (pencil_loop 6 [[0,2,4],[1,3,4],[0,3,5],[1,2,5],[0,1,6],[2,3,6],[4,5,6]]).heap.getD 0 []
      = [0,2,4] := by
  have h := projective_plane_to_OA_no_mutation.1
    [[0,2,4],[1,3,4],[0,3,5],[1,2,5],[0,1,6],[2,3,6],[4,5,6]] 6 0 (by decide)
  rw [h]
  rfl

/-! ### Projective plane theory for C3 -/


/-- The `i`-th block of `bl` as a set of points. -/
def lineF (bl : List (List ℕ)) (i : Fin bl.length) : Finset ℕ := (bl.get i).toFinset

/-- The positions of the blocks through point `p`. -/
def linesThrough (bl : List (List ℕ)) (p : ℕ) : Finset (Fin bl.length) :=
  Finset.univ.filter fun i => p ∈ lineF bl i

/-- List-filter length agrees with the count of matching positions. -/
lemma length_filter_eq_card {α : Type} (l : List α) (p : α → Prop) [DecidablePred p] :
    (l.filter fun a => decide (p a)).length =
      (Finset.univ.filter fun i : Fin l.length => p (l.get i)).card := by
  induction l with
  | nil => simp
  | cons a t ih =>
    rw [Finset.card_filter]
    simp only [List.length_cons]
    rw [Fin.sum_univ_succ]
    simp only [List.get_cons_succ, List.get_cons_succ', List.get_cons_zero]
    rw [← Finset.card_filter, ← ih]
    by_cases hpa : p a
    · rw [List.filter_cons_of_pos (by simpa using hpa), if_pos hpa]
      simp only [List.length_cons]
      omega
    · rw [List.filter_cons_of_neg (by simpa using hpa), if_neg hpa]
      omega

section PlaneCounting

variable {n : ℕ} {bl : List (List ℕ)}

lemma lineF_card (hsz : ∀ B ∈ bl, B.Nodup ∧ B.length = n + 1 ∧ ∀ x ∈ B, x < n ^ 2 + n + 1)
    (i : Fin bl.length) : (lineF bl i).card = n + 1 := by
  obtain ⟨h1, h2, -⟩ := hsz _ (bl.get_mem i.1 i.2)
  rw [lineF, List.toFinset_card_of_nodup h1, h2]

lemma lineF_subset (hsz : ∀ B ∈ bl, B.Nodup ∧ B.length = n + 1 ∧ ∀ x ∈ B, x < n ^ 2 + n + 1)
    (i : Fin bl.length) : lineF bl i ⊆ Finset.range (n ^ 2 + n + 1) := by
  intro x hx
  exact Finset.mem_range.2 ((hsz _ (bl.get_mem i.1 i.2)).2.2 x (List.mem_toFinset.1 hx))

lemma pair_card
    (hpw : List.Pairwise (fun B1 B2 => (B1.toFinset ∩ B2.toFinset).card = 1) bl)
    (i j : Fin bl.length) (hij : i ≠ j) : (lineF bl i ∩ lineF bl j).card = 1 := by
  have h := List.pairwise_iff_get.1 hpw
  rcases hij.lt_or_lt with hlt | hlt
  · exact h i j hlt
  · rw [Finset.inter_comm]
    exact h j i hlt

lemma sum_linesThrough
    (hsz : ∀ B ∈ bl, B.Nodup ∧ B.length = n + 1 ∧ ∀ x ∈ B, x < n ^ 2 + n + 1) :
    ∑ p ∈ Finset.range (n ^ 2 + n + 1), (linesThrough bl p).card = bl.length * (n + 1) := by
  simp_rw [linesThrough, Finset.card_filter]
  rw [Finset.sum_comm]
  have h : ∀ i : Fin bl.length,
      (∑ p ∈ Finset.range (n ^ 2 + n + 1), if p ∈ lineF bl i then 1 else 0) = n + 1 := by
    intro i
    rw [← Finset.card_filter, Finset.filter_mem_eq_inter,
      Finset.inter_eq_right.2 (lineF_subset hsz i), lineF_card hsz i]
  rw [Finset.sum_congr rfl fun i _ => h i, Finset.sum_const, Finset.card_univ,
    Fintype.card_fin, smul_eq_mul]

lemma sum_linesThrough_offDiag
    (hsz : ∀ B ∈ bl, B.Nodup ∧ B.length = n + 1 ∧ ∀ x ∈ B, x < n ^ 2 + n + 1)
    (hpw : List.Pairwise (fun B1 B2 => (B1.toFinset ∩ B2.toFinset).card = 1) bl) :
    ∑ p ∈ Finset.range (n ^ 2 + n + 1), (linesThrough bl p).offDiag.card
      = bl.length * bl.length - bl.length := by
  have hoff : ∀ p : ℕ, (linesThrough bl p).offDiag =
      (Finset.univ : Finset (Fin bl.length)).offDiag.filter
        (fun ij => p ∈ lineF bl ij.1 ∧ p ∈ lineF bl ij.2) := by
    intro p
    ext ⟨i, j⟩
    simp only [Finset.mem_offDiag, Finset.mem_filter, linesThrough, Finset.mem_univ, true_and]
    tauto
  simp_rw [hoff, Finset.card_filter]
  rw [Finset.sum_comm]
  have hinner : ∀ ij ∈ ((Finset.univ : Finset (Fin bl.length)).offDiag),
      (∑ p ∈ Finset.range (n ^ 2 + n + 1),
        if p ∈ lineF bl ij.1 ∧ p ∈ lineF bl ij.2 then 1 else 0) = 1 := by
    rintro ⟨i, j⟩ hij
    rw [← Finset.card_filter]
    have heq : (Finset.range (n ^ 2 + n + 1)).filter
        (fun p => p ∈ lineF bl i ∧ p ∈ lineF bl j) = lineF bl i ∩ lineF bl j := by
      ext p
      simp only [Finset.mem_filter, Finset.mem_inter, Finset.mem_range]
      constructor
      · rintro ⟨-, h1, h2⟩
        exact ⟨h1, h2⟩
      · rintro ⟨h1, h2⟩
        exact ⟨Finset.mem_range.1 (lineF_subset hsz i h1), h1, h2⟩
    rw [heq]
    exact pair_card hpw i j (Finset.mem_offDiag.1 hij).2.2
  rw [Finset.sum_congr rfl hinner, Finset.sum_const, smul_eq_mul, mul_one,
    Finset.offDiag_card, Finset.card_univ, Fintype.card_fin]

lemma linesThrough_card_eq (hlen : bl.length = n ^ 2 + n + 1)
    (hsz : ∀ B ∈ bl, B.Nodup ∧ B.length = n + 1 ∧ ∀ x ∈ B, x < n ^ 2 + n + 1)
    (hpw : List.Pairwise (fun B1 B2 => (B1.toFinset ∩ B2.toFinset).card = 1) bl)
    (p : ℕ) (hp : p < n ^ 2 + n + 1) : (linesThrough bl p).card = n + 1 := by
  have h1 : ∑ q ∈ Finset.range (n ^ 2 + n + 1), (linesThrough bl q).card
      = (n ^ 2 + n + 1) * (n + 1) := by
    rw [sum_linesThrough hsz, hlen]
  have h2 : ∑ q ∈ Finset.range (n ^ 2 + n + 1),
      ((linesThrough bl q).card * (linesThrough bl q).card - (linesThrough bl q).card)
      = (n ^ 2 + n + 1) * (n ^ 2 + n) := by
    have h := sum_linesThrough_offDiag hsz hpw
    simp_rw [Finset.offDiag_card] at h
    have hb : bl.length * bl.length - bl.length = (n ^ 2 + n + 1) * (n ^ 2 + n) := by
      rw [hlen]
      have e1 : (n ^ 2 + n + 1) * (n ^ 2 + n + 1)
          = (n ^ 2 + n + 1) * (n ^ 2 + n) + (n ^ 2 + n + 1) := by
        ring
      omega
    rw [hb] at h
    exact h
  have h3 : ∑ q ∈ Finset.range (n ^ 2 + n + 1),
      (linesThrough bl q).card * (linesThrough bl q).card
      = (n ^ 2 + n + 1) * (n ^ 2 + n) + (n ^ 2 + n + 1) * (n + 1) := by
    have hterm : ∀ q ∈ Finset.range (n ^ 2 + n + 1),
        (linesThrough bl q).card * (linesThrough bl q).card
          = ((linesThrough bl q).card * (linesThrough bl q).card
              - (linesThrough bl q).card) + (linesThrough bl q).card := by
      intro q hq
      have hle : (linesThrough bl q).card ≤ (linesThrough bl q).card * (linesThrough bl q).card := by
        rcases Nat.eq_zero_or_pos (linesThrough bl q).card with h | h
        · omega
        · exact Nat.le_mul_of_pos_left _ h
      omega
    rw [Finset.sum_congr rfl hterm, Finset.sum_add_distrib, h2, h1]
  have hz : ∑ q ∈ Finset.range (n ^ 2 + n + 1),
      (((linesThrough bl q).card : ℤ) - (n + 1)) ^ 2 = 0 := by
    have hexp : ∀ q ∈ Finset.range (n ^ 2 + n + 1),
        (((linesThrough bl q).card : ℤ) - (n + 1)) ^ 2
          = ((linesThrough bl q).card : ℤ) * ((linesThrough bl q).card : ℤ)
            - (2 * ((n : ℤ) + 1)) * ((linesThrough bl q).card : ℤ) + ((n : ℤ) + 1) ^ 2 := by
      intro q _
      ring
    rw [Finset.sum_congr rfl hexp, Finset.sum_add_distrib, Finset.sum_sub_distrib,
      ← Finset.mul_sum, Finset.sum_const, Finset.card_range, nsmul_eq_mul]
    have hc1 : ∑ q ∈ Finset.range (n ^ 2 + n + 1),
        ((linesThrough bl q).card : ℤ) * ((linesThrough bl q).card : ℤ)
        = ((n : ℤ) ^ 2 + n + 1) * ((n : ℤ) ^ 2 + n) + ((n : ℤ) ^ 2 + n + 1) * ((n : ℤ) + 1) := by
      exact_mod_cast congrArg (Nat.cast : ℕ → ℤ) h3
    have hc2 : ∑ q ∈ Finset.range (n ^ 2 + n + 1), ((linesThrough bl q).card : ℤ)
        = ((n : ℤ) ^ 2 + n + 1) * ((n : ℤ) + 1) := by
      exact_mod_cast congrArg (Nat.cast : ℕ → ℤ) h1
    rw [hc1, hc2]
    push_cast
    ring
  have hterm0 := (Finset.sum_eq_zero_iff_of_nonneg
    (fun q _ => sq_nonneg (((linesThrough bl q).card : ℤ) - (n + 1)))).1 hz p
    (Finset.mem_range.2 hp)
  have hrp : ((linesThrough bl p).card : ℤ) = (n : ℤ) + 1 := by
    have h0 : ((linesThrough bl p).card : ℤ) - (n + 1) = 0 := by
      exact pow_eq_zero_iff (two_ne_zero) |>.1 hterm0
    linarith
  exact_mod_cast hrp

lemma pencil_inter_eq
    (hpw : List.Pairwise (fun B1 B2 => (B1.toFinset ∩ B2.toFinset).card = 1) bl)
    {i j : Fin bl.length} (hij : i ≠ j) {x : ℕ}
    (hxi : x ∈ lineF bl i) (hxj : x ∈ lineF bl j) :
    lineF bl i ∩ lineF bl j = {x} := by
  obtain ⟨a, ha⟩ := Finset.card_eq_one.1 (pair_card hpw i j hij)
  have hx : x ∈ lineF bl i ∩ lineF bl j := Finset.mem_inter.2 ⟨hxi, hxj⟩
  rw [ha, Finset.mem_singleton] at hx
  rw [ha, hx]

lemma point_covered (hlen : bl.length = n ^ 2 + n + 1)
    (hsz : ∀ B ∈ bl, B.Nodup ∧ B.length = n + 1 ∧ ∀ x ∈ B, x < n ^ 2 + n + 1)
    (hpw : List.Pairwise (fun B1 B2 => (B1.toFinset ∩ B2.toFinset).card = 1) bl)
    (x y : ℕ) (hx : x < n ^ 2 + n + 1) (hy : y < n ^ 2 + n + 1) (hxy : y ≠ x) :
    ∃ i : Fin bl.length, x ∈ lineF bl i ∧ y ∈ lineF bl i := by
  have hScard : (linesThrough bl x).card = n + 1 := linesThrough_card_eq hlen hsz hpw x hx
  have hdisj : ∀ i ∈ linesThrough bl x, ∀ j ∈ linesThrough bl x, i ≠ j →
      Disjoint ((lineF bl i).erase x) ((lineF bl j).erase x) := by
    intro i hi j hj hij
    rw [Finset.disjoint_left]
    intro z hzi hzj
    have hne : z ≠ x := Finset.ne_of_mem_erase hzi
    have heq := pencil_inter_eq hpw hij (Finset.mem_filter.1 hi).2 (Finset.mem_filter.1 hj).2
    have hz : z ∈ lineF bl i ∩ lineF bl j :=
      Finset.mem_inter.2 ⟨Finset.mem_of_mem_erase hzi, Finset.mem_of_mem_erase hzj⟩
    rw [heq, Finset.mem_singleton] at hz
    exact hne hz
  have hUcard : ((linesThrough bl x).biUnion fun i => (lineF bl i).erase x).card
      = (n + 1) * n := by
    rw [Finset.card_biUnion hdisj]
    have hterm : ∀ i ∈ linesThrough bl x, ((lineF bl i).erase x).card = n := by
      intro i hi
      rw [Finset.card_erase_of_mem (Finset.mem_filter.1 hi).2, lineF_card hsz i]
      omega
    rw [Finset.sum_congr rfl hterm, Finset.sum_const, smul_eq_mul, hScard]
  have hUsub : ((linesThrough bl x).biUnion fun i => (lineF bl i).erase x)
      ⊆ (Finset.range (n ^ 2 + n + 1)).erase x := by
    intro z hz
    obtain ⟨i, -, hzi⟩ := Finset.mem_biUnion.1 hz
    exact Finset.mem_erase.2 ⟨Finset.ne_of_mem_erase hzi,
      lineF_subset hsz i (Finset.mem_of_mem_erase hzi)⟩
  have hcards : ((Finset.range (n ^ 2 + n + 1)).erase x).card
      ≤ ((linesThrough bl x).biUnion fun i => (lineF bl i).erase x).card := by
    rw [Finset.card_erase_of_mem (Finset.mem_range.2 hx), Finset.card_range, hUcard]
    have he : (n + 1) * n = n ^ 2 + n := by ring
    omega
  have hUeq := Finset.eq_of_subset_of_card_le hUsub hcards
  have hyU : y ∈ (linesThrough bl x).biUnion fun i => (lineF bl i).erase x := by
    rw [hUeq]
    exact Finset.mem_erase.2 ⟨hxy, Finset.mem_range.2 hy⟩
  obtain ⟨i, hi, hyi⟩ := Finset.mem_biUnion.1 hyU
  exact ⟨i, (Finset.mem_filter.1 hi).2, Finset.mem_of_mem_erase hyi⟩

lemma two_points_line (hlen : bl.length = n ^ 2 + n + 1)
    (hsz : ∀ B ∈ bl, B.Nodup ∧ B.length = n + 1 ∧ ∀ x ∈ B, x < n ^ 2 + n + 1)
    (hpw : List.Pairwise (fun B1 B2 => (B1.toFinset ∩ B2.toFinset).card = 1) bl)
    (x y : ℕ) (hx : x < n ^ 2 + n + 1) (hy : y < n ^ 2 + n + 1) (hxy : x ≠ y) :
    ∃! i : Fin bl.length, x ∈ lineF bl i ∧ y ∈ lineF bl i := by
  obtain ⟨i, hxi, hyi⟩ := point_covered hlen hsz hpw x y hx hy (Ne.symm hxy)
  refine ⟨i, ⟨hxi, hyi⟩, ?_⟩
  rintro j ⟨hxj, hyj⟩
  by_contra hji
  have heq := pencil_inter_eq hpw hji hxj hxi
  have hyin : y ∈ lineF bl j ∩ lineF bl i := Finset.mem_inter.2 ⟨hyj, hyi⟩
  rw [heq, Finset.mem_singleton] at hyin
  exact hxy hyin.symm

end PlaneCounting


/-! dict lookup lemmas -/

lemma find?_unique_key {β : Type} (l : List (ℕ × β)) (x : ℕ) (b : β)
    (hmem : (x, b) ∈ l) (huniq : ∀ b', (x, b') ∈ l → b' = b) :
    (l.find? fun kv => kv.1 == x).map Prod.snd = some b := by
  induction l with
  | nil => simp at hmem
  | cons kv t ih =>
    by_cases hk : kv.1 = x
    · rw [List.find?_cons_of_pos _ (by simp [hk])]
      have hkv : (x, kv.2) = kv := by
        rw [Prod.ext_iff]
        exact ⟨hk.symm, rfl⟩
      have hv := huniq kv.2 (by rw [hkv]; exact List.mem_cons_self _ _)
      simp [hv]
    · rw [List.find?_cons_of_neg _ (by simp [hk])]
      rcases List.mem_cons.1 hmem with h | h
      · exact absurd (congrArg Prod.fst h.symm) hk
      · exact ih h fun b' hb' => huniq b' (List.mem_cons_of_mem _ hb')

lemma dict_get_eq (entries : List (ℕ × (ℕ × ℕ))) (x : ℕ) (b : ℕ × ℕ)
    (hmem : (x, b) ∈ entries) (huniq : ∀ b', (x, b') ∈ entries → b' = b) :
    dict_get entries x = some b :=
  find?_unique_key _ x b (List.mem_reverse.2 hmem) fun b' hb' =>
    huniq b' (List.mem_reverse.1 hb')

lemma mem_dict_entries (L : List (List ℕ)) (x j i : ℕ) :
    (x, (j, i)) ∈ dict_entries L ↔
      ∃ hj : j < L.length, ∃ hi : i < (L.get ⟨j, hj⟩).length,
        (L.get ⟨j, hj⟩).get ⟨i, hi⟩ = x := by
  simp only [dict_entries, List.mem_flatMap, List.mem_map, List.mem_enum_iff_getElem?]
  constructor
  · rintro ⟨⟨j2, l⟩, hl, ⟨i2, y⟩, hy, heq⟩
    simp only [Prod.mk.injEq] at heq
    obtain ⟨hyx, hjj, hii⟩ := heq
    simp only at hl hy
    rw [hjj] at hl
    rw [hii, hyx] at hy
    obtain ⟨hj, hl'⟩ := List.getElem?_eq_some.1 hl
    refine ⟨hj, ?_⟩
    have hLj : L.get ⟨j, hj⟩ = l := by
      rw [List.get_eq_getElem]
      exact hl'
    rw [hLj]
    obtain ⟨hi, hy'⟩ := List.getElem?_eq_some.1 hy
    exact ⟨hi, by rw [List.get_eq_getElem]; exact hy'⟩
  · rintro ⟨hj, hi, hget⟩
    refine ⟨(j, L.get ⟨j, hj⟩), ?_, (i, x), ?_, rfl⟩
    · simp only
      rw [List.getElem?_eq_getElem hj]
      rw [List.get_eq_getElem]
    · simp only
      rw [List.getElem?_eq_getElem hi]
      exact congrArg some hget

lemma pencil_relabel_eq (L : List (List ℕ)) (x c : ℕ) (hc : c < L.length)
    (hx : x ∈ L.get ⟨c, hc⟩)
    (huniq : ∀ c' (hc' : c' < L.length), x ∈ L.get ⟨c', hc'⟩ → c' = c)
    (hnd : ∀ l ∈ L, l.Nodup) :
    pencil_relabel L x = some (c, List.indexOf x (L.get ⟨c, hc⟩)) := by
  refine dict_get_eq _ x _ ?_ ?_
  · rw [mem_dict_entries]
    refine ⟨hc, ?_⟩
    have hidx : List.indexOf x (L.get ⟨c, hc⟩) < (L.get ⟨c, hc⟩).length :=
      List.indexOf_lt_length.2 hx
    refine ⟨hidx, ?_⟩
    rw [List.get_eq_getElem]
    exact List.getElem_indexOf hidx
  · rintro ⟨j, i⟩ hmem'
    rw [mem_dict_entries] at hmem'
    obtain ⟨hj, hi, hget⟩ := hmem'
    have hxj : x ∈ L.get ⟨j, hj⟩ := hget ▸ List.get_mem _ _ _
    have hjc := huniq j hj hxj
    subst hjc
    have hndj : (L.get ⟨j, hj⟩).Nodup := hnd _ (List.get_mem _ _ _)
    have hieq : i = List.indexOf x (L.get ⟨j, hj⟩) := by
      have h2 : (L.get ⟨j, hj⟩).get ⟨i, hi⟩ =
          (L.get ⟨j, hj⟩).get ⟨List.indexOf x (L.get ⟨j, hj⟩), List.indexOf_lt_length.2 hxj⟩ := by
        rw [hget, List.get_eq_getElem]
        exact (List.getElem_indexOf (List.indexOf_lt_length.2 hxj)).symm
      have := (hndj.get_inj_iff).1 h2
      exact congrArg Fin.val this
    rw [hieq]

/-! sorted pair lists: positions determine first components -/

lemma sorted_pairs_fst_get (ps : List (ℕ × ℕ)) (hsort : List.Sorted pairLe ps)
    (hnd : (ps.map Prod.fst).Nodup) (hlt : ∀ p ∈ ps, p.1 < ps.length) :
    ∀ t (ht : t < ps.length), (ps.get ⟨t, ht⟩).1 = t := by
  have h1 : List.Pairwise (fun p q : ℕ × ℕ => p.1 ≠ q.1) ps := List.pairwise_map.1 hnd
  have hstrict : List.Pairwise (fun p q : ℕ × ℕ => p.1 < q.1) ps := by
    have h2 : List.Pairwise (fun p q : ℕ × ℕ => pairLe p q ∧ p.1 ≠ q.1) ps :=
      hsort.and h1
    refine h2.imp ?_
    intro p q hpq
    rcases hpq with ⟨hle | ⟨heq, -⟩, hne⟩
    · exact hle
    · exact absurd heq hne
  have hget := List.pairwise_iff_get.1 hstrict
  have hlb : ∀ t (ht : t < ps.length), t ≤ (ps.get ⟨t, ht⟩).1 := by
    intro t
    induction t with
    | zero => exact fun ht => Nat.zero_le _
    | succ k ihk =>
      intro ht
      have hk : k < ps.length := by omega
      have hs := hget ⟨k, hk⟩ ⟨k + 1, ht⟩ (Fin.mk_lt_mk.mpr (by omega))
      have hi := ihk hk
      omega
  intro t ht
  have h2 : ∀ d (h : t + d < ps.length),
      (ps.get ⟨t, ht⟩).1 + d ≤ (ps.get ⟨t + d, h⟩).1 := by
    intro d
    induction d with
    | zero =>
      intro h
      rw [show (⟨t + 0, h⟩ : Fin ps.length) = ⟨t, ht⟩ from Fin.ext rfl]
      omega
    | succ k ihk =>
      intro h
      have h1' : t + k < ps.length := by omega
      have h2' := ihk h1'
      have h3' := hget ⟨t + k, h1'⟩ ⟨t + (k + 1), h⟩ (Fin.mk_lt_mk.mpr (by omega))
      omega
  have hub : (ps.get ⟨t, ht⟩).1 ≤ t := by
    have hlast : t + (ps.length - 1 - t) < ps.length := by omega
    have hg := h2 (ps.length - 1 - t) hlast
    have hb := hlt _ (List.get_mem ps (t + (ps.length - 1 - t)) hlast)
    omega
  have hl := hlb t ht
  omega

lemma mem_sorted_pairs (ps : List (ℕ × ℕ)) (hsort : List.Sorted pairLe ps)
    (hnd : (ps.map Prod.fst).Nodup) (hlt : ∀ p ∈ ps, p.1 < ps.length)
    (c s : ℕ) (hc : c < ps.length) :
    (c, s) ∈ ps ↔ (ps.get ⟨c, hc⟩).2 = s := by
  constructor
  · intro hmem
    obtain ⟨t, hts⟩ := List.mem_iff_get.1 hmem
    have h1 := sorted_pairs_fst_get ps hsort hnd hlt t.1 t.2
    have hct : t.1 = c := by
      rw [show ps.get ⟨t.1, t.2⟩ = ps.get t from rfl, hts] at h1
      exact h1.symm
    have : (⟨c, hc⟩ : Fin ps.length) = ⟨t.1, t.2⟩ := by
      exact Fin.ext hct.symm
    rw [this]
    rw [show ps.get ⟨t.1, t.2⟩ = ps.get t from rfl, hts]
  · intro h2
    have h1 := sorted_pairs_fst_get ps hsort hnd hlt c hc
    have hcs : ps.get ⟨c, hc⟩ = (c, s) := Prod.ext_iff.2 ⟨h1, h2⟩
    rw [← hcs]
    exact List.get_mem _ _ _


section PencilStructure

variable {n : ℕ} {bl : List (List ℕ)} {pt : ℕ}

lemma pencilBlocks_length (hlen : bl.length = n ^ 2 + n + 1)
    (hsz : ∀ B ∈ bl, B.Nodup ∧ B.length = n + 1 ∧ ∀ x ∈ B, x < n ^ 2 + n + 1)
    (hpw : List.Pairwise (fun B1 B2 => (B1.toFinset ∩ B2.toFinset).card = 1) bl)
    (hpt : pt < n ^ 2 + n + 1) :
    (pencilBlocks bl pt).length = n + 1 := by
  rw [pencilBlocks, length_filter_eq_card bl (fun blk => pt ∈ blk)]
  have heq : (Finset.univ.filter fun i : Fin bl.length => pt ∈ bl.get i)
      = linesThrough bl pt := by
    ext i
    simp [linesThrough, lineF, List.mem_toFinset]
  rw [heq]
  exact linesThrough_card_eq hlen hsz hpw pt hpt

lemma pencilLines_length (hlen : bl.length = n ^ 2 + n + 1)
    (hsz : ∀ B ∈ bl, B.Nodup ∧ B.length = n + 1 ∧ ∀ x ∈ B, x < n ^ 2 + n + 1)
    (hpw : List.Pairwise (fun B1 B2 => (B1.toFinset ∩ B2.toFinset).card = 1) bl)
    (hpt : pt < n ^ 2 + n + 1) :
    (pencilLines bl pt).length = n + 1 := by
  rw [pencilLines, List.length_map]
  exact pencilBlocks_length hlen hsz hpw hpt

lemma rowBlocks_length (hlen : bl.length = n ^ 2 + n + 1)
    (hsz : ∀ B ∈ bl, B.Nodup ∧ B.length = n + 1 ∧ ∀ x ∈ B, x < n ^ 2 + n + 1)
    (hpw : List.Pairwise (fun B1 B2 => (B1.toFinset ∩ B2.toFinset).card = 1) bl)
    (hpt : pt < n ^ 2 + n + 1) :
    (rowBlocks bl pt).length = n ^ 2 := by
  rw [rowBlocks, length_filter_eq_card bl (fun blk => pt ∉ blk)]
  have hdual : ((Finset.univ : Finset (Fin bl.length)).filter
        (fun i => pt ∈ bl.get i)).card +
      ((Finset.univ : Finset (Fin bl.length)).filter
        (fun i => ¬ pt ∈ bl.get i)).card
      = (Finset.univ : Finset (Fin bl.length)).card :=
    Finset.filter_card_add_filter_neg_card_eq_card _
  have heq1 : (Finset.univ.filter fun i : Fin bl.length => pt ∈ bl.get i)
      = linesThrough bl pt := by
    ext i
    simp [linesThrough, lineF, List.mem_toFinset]
  rw [heq1, linesThrough_card_eq hlen hsz hpw pt hpt, Finset.card_univ,
    Fintype.card_fin] at hdual
  rw [Finset.filter_congr_decidable]
  rw [Finset.filter_congr_decidable] at hdual
  omega

lemma pencilBlocks_get_mem (c : ℕ) (hc : c < (pencilBlocks bl pt).length) :
    (pencilBlocks bl pt).get ⟨c, hc⟩ ∈ bl ∧ pt ∈ (pencilBlocks bl pt).get ⟨c, hc⟩ := by
  have hmem := List.get_mem (pencilBlocks bl pt) c hc
  have h := List.mem_filter.1 hmem
  exact ⟨h.1, by simpa using h.2⟩

lemma pencilLines_get (c : ℕ) (hc : c < (pencilLines bl pt).length) :
    ∃ hc' : c < (pencilBlocks bl pt).length,
      (pencilLines bl pt).get ⟨c, hc⟩ = ((pencilBlocks bl pt).get ⟨c, hc'⟩).erase pt := by
  have hc' : c < (pencilBlocks bl pt).length := by
    have := hc
    rw [pencilLines, List.length_map] at this
    exact this
  refine ⟨hc', ?_⟩
  rw [List.get_eq_getElem, List.get_eq_getElem]
  exact List.getElem_map _

lemma mem_pencilLines_get
    (hsz : ∀ B ∈ bl, B.Nodup ∧ B.length = n + 1 ∧ ∀ x ∈ B, x < n ^ 2 + n + 1)
    (c : ℕ) (hc : c < (pencilLines bl pt).length) (x : ℕ) :
    x ∈ (pencilLines bl pt).get ⟨c, hc⟩ ↔
      x ≠ pt ∧ ∃ hc' : c < (pencilBlocks bl pt).length,
        x ∈ (pencilBlocks bl pt).get ⟨c, hc'⟩ := by
  obtain ⟨hc', hgl⟩ := pencilLines_get c hc
  have hnd : ((pencilBlocks bl pt).get ⟨c, hc'⟩).Nodup :=
    (hsz _ (pencilBlocks_get_mem c hc').1).1
  rw [hgl, hnd.mem_erase_iff]
  constructor
  · rintro ⟨h1, h2⟩
    exact ⟨h1, hc', h2⟩
  · rintro ⟨h1, hc2, h2⟩
    exact ⟨h1, h2⟩

lemma pencilLines_get_nodup
    (hsz : ∀ B ∈ bl, B.Nodup ∧ B.length = n + 1 ∧ ∀ x ∈ B, x < n ^ 2 + n + 1)
    (c : ℕ) (hc : c < (pencilLines bl pt).length) :
    ((pencilLines bl pt).get ⟨c, hc⟩).Nodup := by
  obtain ⟨hc', hgl⟩ := pencilLines_get c hc
  rw [hgl]
  exact ((hsz _ (pencilBlocks_get_mem c hc').1).1).erase pt

lemma pencilLines_get_length
    (hsz : ∀ B ∈ bl, B.Nodup ∧ B.length = n + 1 ∧ ∀ x ∈ B, x < n ^ 2 + n + 1)
    (c : ℕ) (hc : c < (pencilLines bl pt).length) :
    ((pencilLines bl pt).get ⟨c, hc⟩).length = n := by
  obtain ⟨hc', hgl⟩ := pencilLines_get c hc
  obtain ⟨h1, h2, -⟩ := hsz _ (pencilBlocks_get_mem c hc').1
  rw [hgl, List.length_erase_of_mem (pencilBlocks_get_mem c hc').2, h2]
  omega

end PencilStructure

section PencilStructure2

variable {n : ℕ} {bl : List (List ℕ)} {pt : ℕ}

lemma pairwise_inter_card {l : List (List ℕ)}
    (hpw : List.Pairwise (fun B1 B2 => (B1.toFinset ∩ B2.toFinset).card = 1) l)
    (i j : Fin l.length) (hij : i ≠ j) :
    ((l.get i).toFinset ∩ (l.get j).toFinset).card = 1 := by
  have h := List.pairwise_iff_get.1 hpw
  rcases hij.lt_or_lt with hlt | hlt
  · exact h i j hlt
  · rw [Finset.inter_comm]
    exact h j i hlt

lemma inter_card_one_eq {A B : Finset ℕ} (h : (A ∩ B).card = 1) {x : ℕ}
    (hxA : x ∈ A) (hxB : x ∈ B) : A ∩ B = {x} := by
  obtain ⟨a, ha⟩ := Finset.card_eq_one.1 h
  have hx : x ∈ A ∩ B := Finset.mem_inter.2 ⟨hxA, hxB⟩
  rw [ha, Finset.mem_singleton] at hx
  rw [ha, hx]

lemma pencilLines_disjoint
    (hsz : ∀ B ∈ bl, B.Nodup ∧ B.length = n + 1 ∧ ∀ x ∈ B, x < n ^ 2 + n + 1)
    (hpw : List.Pairwise (fun B1 B2 => (B1.toFinset ∩ B2.toFinset).card = 1) bl)
    (c c' : ℕ) (hc : c < (pencilLines bl pt).length)
    (hc' : c' < (pencilLines bl pt).length) (hne : c ≠ c') (x : ℕ)
    (hx : x ∈ (pencilLines bl pt).get ⟨c, hc⟩)
    (hx' : x ∈ (pencilLines bl pt).get ⟨c', hc'⟩) : False := by
  rw [mem_pencilLines_get hsz] at hx hx'
  obtain ⟨hxpt, hcP, hxB⟩ := hx
  obtain ⟨-, hcP', hxB'⟩ := hx'
  have hPpw : List.Pairwise (fun B1 B2 => (B1.toFinset ∩ B2.toFinset).card = 1)
      (pencilBlocks bl pt) :=
    List.Pairwise.sublist (List.filter_sublist bl) hpw
  have hcard := pairwise_inter_card hPpw ⟨c, hcP⟩ ⟨c', hcP'⟩
    (by simp [Fin.ext_iff]; exact hne)
  have hsingle := inter_card_one_eq hcard
    (List.mem_toFinset.2 (pencilBlocks_get_mem c hcP).2)
    (List.mem_toFinset.2 (pencilBlocks_get_mem c' hcP').2)
  have hxin : x ∈ ((pencilBlocks bl pt).get ⟨c, hcP⟩).toFinset ∩
      ((pencilBlocks bl pt).get ⟨c', hcP'⟩).toFinset :=
    Finset.mem_inter.2 ⟨List.mem_toFinset.2 hxB, List.mem_toFinset.2 hxB'⟩
  rw [hsingle, Finset.mem_singleton] at hxin
  exact hxpt hxin

lemma pencilLines_all_nodup
    (hsz : ∀ B ∈ bl, B.Nodup ∧ B.length = n + 1 ∧ ∀ x ∈ B, x < n ^ 2 + n + 1) :
    ∀ l ∈ pencilLines bl pt, l.Nodup := by
  intro l hl
  obtain ⟨B, hB, rfl⟩ := List.mem_map.1 hl
  exact ((hsz B (List.mem_filter.1 hB).1).1).erase pt

lemma unique_pencilLine (hlen : bl.length = n ^ 2 + n + 1)
    (hsz : ∀ B ∈ bl, B.Nodup ∧ B.length = n + 1 ∧ ∀ x ∈ B, x < n ^ 2 + n + 1)
    (hpw : List.Pairwise (fun B1 B2 => (B1.toFinset ∩ B2.toFinset).card = 1) bl)
    (hpt : pt < n ^ 2 + n + 1) (x : ℕ) (hx : x < n ^ 2 + n + 1) (hxpt : x ≠ pt) :
    ∃ c, ∃ hc : c < (pencilLines bl pt).length,
      x ∈ (pencilLines bl pt).get ⟨c, hc⟩ ∧
      ∀ c' (hc' : c' < (pencilLines bl pt).length),
        x ∈ (pencilLines bl pt).get ⟨c', hc'⟩ → c' = c := by
  obtain ⟨i, hpti, hxi⟩ := point_covered hlen hsz hpw pt x hpt hx hxpt
  have hBmem : bl.get i ∈ pencilBlocks bl pt :=
    List.mem_filter.2 ⟨List.get_mem bl i.1 i.2, by
      simp only [decide_eq_true_eq]
      exact List.mem_toFinset.1 hpti⟩
  obtain ⟨⟨c, hcP⟩, hgc⟩ := List.mem_iff_get.1 hBmem
  have hc : c < (pencilLines bl pt).length := by
    rw [pencilLines, List.length_map]
    exact hcP
  refine ⟨c, hc, ?_, ?_⟩
  · rw [mem_pencilLines_get hsz]
    refine ⟨hxpt, hcP, ?_⟩
    rw [hgc]
    exact List.mem_toFinset.1 hxi
  · intro c' hc' hxc'
    by_contra hne
    exact pencilLines_disjoint hsz hpw c' c hc' hc hne x hxc' (by
      rw [mem_pencilLines_get hsz]
      refine ⟨hxpt, hcP, ?_⟩
      rw [hgc]
      exact List.mem_toFinset.1 hxi)

lemma relabel_spec (hlen : bl.length = n ^ 2 + n + 1)
    (hsz : ∀ B ∈ bl, B.Nodup ∧ B.length = n + 1 ∧ ∀ x ∈ B, x < n ^ 2 + n + 1)
    (hpw : List.Pairwise (fun B1 B2 => (B1.toFinset ∩ B2.toFinset).card = 1) bl)
    (hpt : pt < n ^ 2 + n + 1) (x : ℕ) (hx : x < n ^ 2 + n + 1) (hxpt : x ≠ pt) :
    ∃ c, ∃ hc : c < (pencilLines bl pt).length,
      x ∈ (pencilLines bl pt).get ⟨c, hc⟩ ∧
      pencil_relabel (pencilLines bl pt) x
        = some (c, List.indexOf x ((pencilLines bl pt).get ⟨c, hc⟩)) ∧
      ∀ c' (hc' : c' < (pencilLines bl pt).length),
        x ∈ (pencilLines bl pt).get ⟨c', hc'⟩ → c' = c := by
  obtain ⟨c, hc, hxc, huniq⟩ := unique_pencilLine hlen hsz hpw hpt x hx hxpt
  exact ⟨c, hc, hxc,
    pencil_relabel_eq (pencilLines bl pt) x c hc hxc huniq (pencilLines_all_nodup hsz),
    huniq⟩

lemma rowBlock_mem_bl (l : List ℕ) (hl : l ∈ rowBlocks bl pt) :
    l ∈ bl ∧ pt ∉ l := by
  have h := List.mem_filter.1 hl
  exact ⟨h.1, by simpa using h.2⟩

lemma row_pencil_inter
    (hpw : List.Pairwise (fun B1 B2 => (B1.toFinset ∩ B2.toFinset).card = 1) bl)
    (l : List ℕ) (hl : l ∈ rowBlocks bl pt) (c : ℕ)
    (hcP : c < (pencilBlocks bl pt).length) :
    (l.toFinset ∩ ((pencilBlocks bl pt).get ⟨c, hcP⟩).toFinset).card = 1 := by
  obtain ⟨hlbl, hlpt⟩ := rowBlock_mem_bl l hl
  obtain ⟨i, hgi⟩ := List.mem_iff_get.1 hlbl
  obtain ⟨j, hgj⟩ := List.mem_iff_get.1 (List.mem_filter.1
    (List.get_mem (pencilBlocks bl pt) c hcP) |>.1)
  have hij : i ≠ j := by
    intro hij
    rw [hij] at hgi
    rw [hgi] at hgj
    exact hlpt (hgj ▸ (pencilBlocks_get_mem c hcP).2)
  have := pairwise_inter_card hpw i j hij
  rw [hgi, hgj] at this
  exact this

lemma rowBlocks_pairwise
    (hpw : List.Pairwise (fun B1 B2 => (B1.toFinset ∩ B2.toFinset).card = 1) bl) :
    List.Pairwise (fun B1 B2 => (B1.toFinset ∩ B2.toFinset).card = 1) (rowBlocks bl pt) :=
  List.Pairwise.sublist (List.filter_sublist bl) hpw

end PencilStructure2

section RowAnalysis

variable {n : ℕ} {bl : List (List ℕ)} {pt : ℕ}

lemma row_points
    (hsz : ∀ B ∈ bl, B.Nodup ∧ B.length = n + 1 ∧ ∀ x ∈ B, x < n ^ 2 + n + 1)
    (l : List ℕ) (hl : l ∈ rowBlocks bl pt) :
    ∀ x ∈ l, x < n ^ 2 + n + 1 ∧ x ≠ pt := by
  intro x hx
  obtain ⟨hlbl, hlpt⟩ := rowBlock_mem_bl l hl
  exact ⟨(hsz l hlbl).2.2 x hx, fun hxe => hlpt (hxe ▸ hx)⟩

lemma makeRow_spec (hlen : bl.length = n ^ 2 + n + 1)
    (hsz : ∀ B ∈ bl, B.Nodup ∧ B.length = n + 1 ∧ ∀ x ∈ B, x < n ^ 2 + n + 1)
    (hpw : List.Pairwise (fun B1 B2 => (B1.toFinset ∩ B2.toFinset).card = 1) bl)
    (hpt : pt < n ^ 2 + n + 1) (l : List ℕ) (hl : l ∈ rowBlocks bl pt) :
    (makeRow (pencilLines bl pt) l).length = n + 1 ∧
    (∀ s ∈ makeRow (pencilLines bl pt) l, s < n) ∧
    (∀ (c s : ℕ) (hcL : c < (pencilLines bl pt).length)
      (hsl : s < ((pencilLines bl pt).get ⟨c, hcL⟩).length),
      ((makeRow (pencilLines bl pt) l).getD c 0 = s ↔
        ((pencilLines bl pt).get ⟨c, hcL⟩).get ⟨s, hsl⟩ ∈ l)) := by
  obtain ⟨hlbl, hlpt⟩ := rowBlock_mem_bl l hl
  have hllen : l.length = n + 1 := (hsz l hlbl).2.1
  have hnodupl : l.Nodup := (hsz l hlbl).1
  have hLplen : (pencilLines bl pt).length = n + 1 := pencilLines_length hlen hsz hpw hpt
  have hperm : (List.insertionSort pairLe
      (l.map fun x => (pencil_relabel (pencilLines bl pt) x).getD (0, 0))).Perm
      (l.map fun x => (pencil_relabel (pencilLines bl pt) x).getD (0, 0)) :=
    List.perm_insertionSort _ _
  have hsort := List.sorted_insertionSort pairLe
    (l.map fun x => (pencil_relabel (pencilLines bl pt) x).getD (0, 0))
  have hlenps : (List.insertionSort pairLe
      (l.map fun x => (pencil_relabel (pencilLines bl pt) x).getD (0, 0))).length
      = n + 1 := by
    rw [hperm.length_eq, List.length_map, hllen]
  have hpoint : ∀ x ∈ l, ∃ c, ∃ hc : c < (pencilLines bl pt).length,
      x ∈ (pencilLines bl pt).get ⟨c, hc⟩ ∧
      ((pencil_relabel (pencilLines bl pt) x).getD (0, 0)
        = (c, List.indexOf x ((pencilLines bl pt).get ⟨c, hc⟩))) ∧
      ∀ c' (hc' : c' < (pencilLines bl pt).length),
        x ∈ (pencilLines bl pt).get ⟨c', hc'⟩ → c' = c := by
    intro x hx
    obtain ⟨hxv, hxpt⟩ := row_points hsz l hl x hx
    obtain ⟨c, hc, hxc, hrel, huniq⟩ := relabel_spec hlen hsz hpw hpt x hxv hxpt
    refine ⟨c, hc, hxc, ?_, huniq⟩
    rw [hrel]
    rfl
  have hinj : ∀ x ∈ l, ∀ y ∈ l,
      ((pencil_relabel (pencilLines bl pt) x).getD (0, 0)).1
        = ((pencil_relabel (pencilLines bl pt) y).getD (0, 0)).1 → x = y := by
    intro x hx y hy hfeq
    obtain ⟨c, hc, hxc, hfx, -⟩ := hpoint x hx
    obtain ⟨c', hc', hyc, hfy, -⟩ := hpoint y hy
    rw [hfx, hfy] at hfeq
    simp only at hfeq
    subst hfeq
    obtain ⟨hcP, hgl⟩ := pencilLines_get c hc
    rw [mem_pencilLines_get hsz] at hxc hyc
    obtain ⟨-, hcP2, hxB⟩ := hxc
    obtain ⟨-, hcP3, hyB⟩ := hyc
    have hcard := row_pencil_inter hpw l hl c hcP
    have hsing := inter_card_one_eq hcard (List.mem_toFinset.2 hx)
      (List.mem_toFinset.2 hxB)
    have hyin : y ∈ l.toFinset ∩ ((pencilBlocks bl pt).get ⟨c, hcP⟩).toFinset :=
      Finset.mem_inter.2 ⟨List.mem_toFinset.2 hy, List.mem_toFinset.2 hyB⟩
    rw [hsing, Finset.mem_singleton] at hyin
    exact hyin.symm
  have hndfst : ((List.insertionSort pairLe
      (l.map fun x => (pencil_relabel (pencilLines bl pt) x).getD (0, 0))).map
        Prod.fst).Nodup := by
    have h1 : (((l.map fun x => (pencil_relabel (pencilLines bl pt) x).getD (0, 0))).map
        Prod.fst).Nodup := by
      rw [List.map_map]
      exact List.Nodup.map_on (fun x hx y hy h => hinj x hx y hy h) hnodupl
    exact ((hperm.map Prod.fst).nodup_iff).2 h1
  have hltps : ∀ p ∈ (List.insertionSort pairLe
      (l.map fun x => (pencil_relabel (pencilLines bl pt) x).getD (0, 0))),
      p.1 < (List.insertionSort pairLe
        (l.map fun x => (pencil_relabel (pencilLines bl pt) x).getD (0, 0))).length := by
    intro p hp
    rw [hperm.mem_iff] at hp
    obtain ⟨x, hx, rfl⟩ := List.mem_map.1 hp
    obtain ⟨c, hc, -, hfx, -⟩ := hpoint x hx
    rw [hfx]
    simp only
    rw [hlenps]
    rw [hLplen] at hc
    exact hc
  refine ⟨?_, ?_, ?_⟩
  · rw [makeRow, List.length_map, hlenps]
  · intro s hs
    rw [makeRow] at hs
    obtain ⟨p, hp, rfl⟩ := List.mem_map.1 hs
    rw [hperm.mem_iff] at hp
    obtain ⟨x, hx, rfl⟩ := List.mem_map.1 hp
    obtain ⟨c, hc, hxc, hfx, -⟩ := hpoint x hx
    rw [hfx]
    simp only
    have := List.indexOf_lt_length.2 hxc
    rw [pencilLines_get_length hsz c hc] at this
    exact this
  · intro c s hcL hsl
    have hcps : c < (List.insertionSort pairLe
        (l.map fun x => (pencil_relabel (pencilLines bl pt) x).getD (0, 0))).length := by
      rw [hlenps]
      rw [hLplen] at hcL
      exact hcL
    have hgetD : (makeRow (pencilLines bl pt) l).getD c 0
        = ((List.insertionSort pairLe
            (l.map fun x => (pencil_relabel (pencilLines bl pt) x).getD (0, 0))).get
              ⟨c, hcps⟩).2 := by
      rw [makeRow, List.getD_eq_getElem _ _ (by rw [List.length_map]; exact hcps),
        List.getElem_map, List.get_eq_getElem]
    rw [hgetD]
    rw [← mem_sorted_pairs _ hsort hndfst hltps c s hcps]
    rw [hperm.mem_iff]
    constructor
    · intro hmem
      obtain ⟨x, hx, hfx⟩ := List.mem_map.1 hmem
      obtain ⟨c2, hc2, hxc2, hfx2, -⟩ := hpoint x hx
      rw [hfx2] at hfx
      have hceq : c2 = c := congrArg Prod.fst hfx
      subst hceq
      have hseq : List.indexOf x ((pencilLines bl pt).get ⟨c2, hc2⟩) = s :=
        congrArg Prod.snd hfx
      have hxeq : ((pencilLines bl pt).get ⟨c2, hcL⟩).get ⟨s, hsl⟩ = x := by
        have hidxlt : List.indexOf x ((pencilLines bl pt).get ⟨c2, hcL⟩) <
            ((pencilLines bl pt).get ⟨c2, hcL⟩).length :=
          List.indexOf_lt_length.2 hxc2
        have hfin : (⟨s, hsl⟩ : Fin ((pencilLines bl pt).get ⟨c2, hcL⟩).length)
            = ⟨List.indexOf x ((pencilLines bl pt).get ⟨c2, hcL⟩), hidxlt⟩ :=
          Fin.ext hseq.symm
        rw [hfin, List.get_eq_getElem]
        exact List.getElem_indexOf hidxlt
      rw [hxeq]
      exact hx
    · intro hmem
      refine List.mem_map.2 ⟨((pencilLines bl pt).get ⟨c, hcL⟩).get ⟨s, hsl⟩, hmem, ?_⟩
      obtain ⟨c2, hc2, hxc2, hfx2, huniq⟩ := hpoint _ hmem
      have hceq : c2 = c := by
        have : c = c2 := huniq c hcL (List.get_mem _ _ _)
        exact this.symm
      subst hceq
      rw [hfx2]
      have hidx : List.indexOf (((pencilLines bl pt).get ⟨c2, hcL⟩).get ⟨s, hsl⟩)
          ((pencilLines bl pt).get ⟨c2, hc2⟩) = s := by
        rw [List.get_eq_getElem]
        exact List.indexOf_getElem (pencilLines_get_nodup hsz c2 hc2) s hsl
      rw [hidx]

end RowAnalysis


/-- The spec glossary's definition of a projective plane of order `n` as a
design `(v, blocks)`: `n^2+n+1` points and blocks, every block a set of
`n+1` point labels, and any two blocks (at distinct positions) meeting in
exactly one point. -/
def IsProjectivePlane (n : ℕ) (D : ℕ × List (List ℕ)) : Prop :=
  D.1 = n ^ 2 + n + 1 ∧
  D.2.length = n ^ 2 + n + 1 ∧
  (∀ B ∈ D.2, B.Nodup ∧ B.length = n + 1 ∧ ∀ x ∈ B, x < n ^ 2 + n + 1) ∧
  List.Pairwise (fun B1 B2 => (B1.toFinset ∩ B2.toFinset).card = 1) D.2

/-- C3: for every design that is a projective plane of order `n` and every
valid point label `pt` (the default being `n^2+n` when `pt` is unspecified),
`projective_plane_to_OA` succeeds, and the returned array has exactly `n^2`
rows, each of width `n+1` with symbols in `0..n-1`, such that for every pair
of distinct columns each ordered symbol pair appears in exactly one row. -/
theorem projective_plane_to_OA_correct (n : ℕ) (D : ℕ × List (List ℕ))
    (pt? : Option ℕ) (check : Bool) (hp : IsProjectivePlane n D)
    (hpt : pt?.getD (n ^ 2 + n) < n ^ 2 + n + 1) :
    projective_plane_to_OA D pt? check = .ok
      ((rowBlocks D.2 (pt?.getD (n ^ 2 + n))).map
        (makeRow (pencilLines D.2 (pt?.getD (n ^ 2 + n))))) ∧
    ∀ rows : List (List ℕ),
      projective_plane_to_OA D pt? check = .ok rows →
      rows.length = n ^ 2 ∧
      (∀ l ∈ rows, l.length = n + 1 ∧ ∀ s ∈ l, s < n) ∧
      (∀ c1 c2 : ℕ, c1 < n + 1 → c2 < n + 1 → c1 ≠ c2 →
        ∀ s1 s2 : ℕ, s1 < n → s2 < n →
          ∃! r : ℕ, r < rows.length ∧
            (rows.getD r []).getD c1 0 = s1 ∧ (rows.getD r []).getD c2 0 = s2) := by
  obtain ⟨v, bl⟩ := D
  obtain ⟨hv, hlen, hsz, hpw⟩ := hp
  simp only at hv hlen hsz hpw hpt ⊢
  set pt := pt?.getD (n ^ 2 + n) with hptdef
  obtain ⟨b0, rest, hbl⟩ : ∃ b0 rest, bl = b0 :: rest := by
    cases hD2 : bl with
    | nil =>
      rw [hD2] at hlen
      simp at hlen
    | cons a t => exact ⟨a, t, rfl⟩
  subst hbl
  have hb0 : b0.length = n + 1 :=
    (hsz b0 (List.mem_cons_self _ _)).2.1
  have hnn : b0.length - 1 = n := by omega
  have hLplen : (pencilLines (b0 :: rest) pt).length = n + 1 :=
    pencilLines_length hlen hsz hpw hpt
  have hkeyok : ∀ l ∈ rowBlocks (b0 :: rest) pt, ∀ x ∈ l,
      (pencil_relabel (pencilLines (b0 :: rest) pt) x).isSome := by
    intro l hl x hx
    obtain ⟨hxv, hxpt⟩ := row_points hsz l hl x hx
    obtain ⟨c, hc, -, hrel, -⟩ := relabel_spec hlen hsz hpw hpt x hxv hxpt
    rw [hrel]
    rfl
  have hfn : projective_plane_to_OA (v, b0 :: rest) pt? check = .ok
      ((rowBlocks (b0 :: rest) pt).map (makeRow (pencilLines (b0 :: rest) pt))) := by
    simp only [projective_plane_to_OA]
    rw [hnn, ← hptdef]
    rw [if_neg (by rw [hlen]; exact fun h => h rfl)]
    rw [if_neg (by
      intro hcon
      exact hcon fun blk hblk => (hsz blk hblk).2.1)]
    rw [if_neg (by rw [hLplen]; exact fun h => h rfl)]
    rw [if_neg (by intro hcon; exact hcon hkeyok)]
  refine ⟨hfn, ?_⟩
  intro rows hrows
  rw [hfn] at hrows
  have hrowseq : rows = (rowBlocks (b0 :: rest) pt).map (makeRow (pencilLines (b0 :: rest) pt)) :=
    (Except.ok.inj hrows).symm
  subst hrowseq
  have hRlen : (rowBlocks (b0 :: rest) pt).length = n ^ 2 :=
    rowBlocks_length hlen hsz hpw hpt
  refine ⟨by rw [List.length_map, hRlen], ?_, ?_⟩
  · intro l hlmem
    obtain ⟨l0, hl0, rfl⟩ := List.mem_map.1 hlmem
    obtain ⟨h1, h2, -⟩ := makeRow_spec hlen hsz hpw hpt l0 hl0
    exact ⟨h1, h2⟩
  · intro c1 c2 hc1 hc2 hcc s1 s2 hs1 hs2
    have hc1L : c1 < (pencilLines (b0 :: rest) pt).length := by omega
    have hc2L : c2 < (pencilLines (b0 :: rest) pt).length := by omega
    have hs1l : s1 < ((pencilLines (b0 :: rest) pt).get ⟨c1, hc1L⟩).length := by
      rw [pencilLines_get_length hsz c1 hc1L]
      exact hs1
    have hs2l : s2 < ((pencilLines (b0 :: rest) pt).get ⟨c2, hc2L⟩).length := by
      rw [pencilLines_get_length hsz c2 hc2L]
      exact hs2
    set x1 := ((pencilLines (b0 :: rest) pt).get ⟨c1, hc1L⟩).get ⟨s1, hs1l⟩ with hx1def
    set x2 := ((pencilLines (b0 :: rest) pt).get ⟨c2, hc2L⟩).get ⟨s2, hs2l⟩ with hx2def
    have hx1mem : x1 ∈ (pencilLines (b0 :: rest) pt).get ⟨c1, hc1L⟩ := List.get_mem _ _ _
    have hx2mem : x2 ∈ (pencilLines (b0 :: rest) pt).get ⟨c2, hc2L⟩ := List.get_mem _ _ _
    have hx1p := (mem_pencilLines_get hsz c1 hc1L x1).1 hx1mem
    have hx2p := (mem_pencilLines_get hsz c2 hc2L x2).1 hx2mem
    obtain ⟨hx1pt, hc1P, hx1B⟩ := hx1p
    obtain ⟨hx2pt, hc2P, hx2B⟩ := hx2p
    have hx1v : x1 < n ^ 2 + n + 1 :=
      (hsz _ (pencilBlocks_get_mem c1 hc1P).1).2.2 x1 hx1B
    have hx2v : x2 < n ^ 2 + n + 1 :=
      (hsz _ (pencilBlocks_get_mem c2 hc2P).1).2.2 x2 hx2B
    have hx12 : x1 ≠ x2 := by
      intro heq
      exact pencilLines_disjoint hsz hpw c1 c2 hc1L hc2L hcc x1 hx1mem (heq ▸ hx2mem)
    obtain ⟨i, ⟨hx1i, hx2i⟩, hiuniq⟩ := two_points_line hlen hsz hpw x1 x2 hx1v hx2v hx12
    have hpti : pt ∉ (b0 :: rest).get i := by
      intro hpti
      have hBmem : (b0 :: rest).get i ∈ pencilBlocks (b0 :: rest) pt :=
        List.mem_filter.2 ⟨List.get_mem _ _ _, by simpa using hpti⟩
      obtain ⟨⟨c', hc'P⟩, hgc'⟩ := List.mem_iff_get.1 hBmem
      have hc'L : c' < (pencilLines (b0 :: rest) pt).length := by
        rw [hLplen]
        rw [pencilBlocks_length hlen hsz hpw hpt] at hc'P
        exact hc'P
      have hx1c' : x1 ∈ (pencilLines (b0 :: rest) pt).get ⟨c', hc'L⟩ := by
        rw [mem_pencilLines_get hsz]
        refine ⟨hx1pt, hc'P, ?_⟩
        rw [hgc']
        exact List.mem_toFinset.1 hx1i
      have hx2c' : x2 ∈ (pencilLines (b0 :: rest) pt).get ⟨c', hc'L⟩ := by
        rw [mem_pencilLines_get hsz]
        refine ⟨hx2pt, hc'P, ?_⟩
        rw [hgc']
        exact List.mem_toFinset.1 hx2i
      obtain ⟨cx1, hcx1, hxcx1, hux1⟩ := unique_pencilLine hlen hsz hpw hpt x1 hx1v hx1pt
      obtain ⟨cx2, hcx2, hxcx2, hux2⟩ := unique_pencilLine hlen hsz hpw hpt x2 hx2v hx2pt
      have e1 : c1 = cx1 := hux1 c1 hc1L hx1mem
      have e2 : c' = cx1 := hux1 c' hc'L hx1c'
      have e3 : c2 = cx2 := hux2 c2 hc2L hx2mem
      have e4 : c' = cx2 := hux2 c' hc'L hx2c'
      omega
    have hRmem : (b0 :: rest).get i ∈ rowBlocks (b0 :: rest) pt :=
      List.mem_filter.2 ⟨List.get_mem _ _ _, by simpa using hpti⟩
    obtain ⟨⟨r, hrR⟩, hgr⟩ := List.mem_iff_get.1 hRmem
    have hrowsget : ∀ (r' : ℕ) (hr' : r' < (rowBlocks (b0 :: rest) pt).length),
        (((rowBlocks (b0 :: rest) pt).map
          (makeRow (pencilLines (b0 :: rest) pt))).getD r' []) =
          makeRow (pencilLines (b0 :: rest) pt) ((rowBlocks (b0 :: rest) pt).get ⟨r', hr'⟩) := by
      intro r' hr'
      rw [List.getD_eq_getElem _ _ (by rw [List.length_map]; exact hr'), List.getElem_map,
        List.get_eq_getElem]
    have hmrlen : (((rowBlocks (b0 :: rest) pt).map
        (makeRow (pencilLines (b0 :: rest) pt)))).length = (rowBlocks (b0 :: rest) pt).length :=
      List.length_map _ _
    refine ⟨r, ⟨by rw [hmrlen]; exact hrR, ?_, ?_⟩, ?_⟩
    · rw [hrowsget r hrR]
      rw [(makeRow_spec hlen hsz hpw hpt _ (List.get_mem _ _ _)).2.2 c1 s1 hc1L hs1l]
      rw [hgr]
      exact List.mem_toFinset.1 hx1i
    · rw [hrowsget r hrR]
      rw [(makeRow_spec hlen hsz hpw hpt _ (List.get_mem _ _ _)).2.2 c2 s2 hc2L hs2l]
      rw [hgr]
      exact List.mem_toFinset.1 hx2i
    · rintro r' ⟨hr'lt, he1, he2⟩
      rw [hmrlen] at hr'lt
      rw [hrowsget r' hr'lt] at he1 he2
      rw [(makeRow_spec hlen hsz hpw hpt _ (List.get_mem _ _ _)).2.2 c1 s1 hc1L hs1l] at he1
      rw [(makeRow_spec hlen hsz hpw hpt _ (List.get_mem _ _ _)).2.2 c2 s2 hc2L hs2l] at he2
      by_contra hrr
      have hpwR : List.Pairwise (fun B1 B2 => (B1.toFinset ∩ B2.toFinset).card = 1)
          (rowBlocks (b0 :: rest) pt) := rowBlocks_pairwise hpw
      have hcard := pairwise_inter_card hpwR ⟨r', hr'lt⟩ ⟨r, hrR⟩
        (by simp [Fin.ext_iff]; exact hrr)
      have hsub : ({x1, x2} : Finset ℕ) ⊆
          ((rowBlocks (b0 :: rest) pt).get ⟨r', hr'lt⟩).toFinset ∩
            ((rowBlocks (b0 :: rest) pt).get ⟨r, hrR⟩).toFinset := by
        intro z hz
        rcases Finset.mem_insert.1 hz with rfl | hz
        · refine Finset.mem_inter.2 ⟨List.mem_toFinset.2 he1, ?_⟩
          rw [hgr]
          exact hx1i
        · rw [Finset.mem_singleton] at hz
          subst hz
          refine Finset.mem_inter.2 ⟨List.mem_toFinset.2 he2, ?_⟩
          rw [hgr]
          exact hx2i
      have h2le := Finset.card_le_card hsub
      rw [Finset.card_pair hx12, hcard] at h2le
      omega


/-- Witness for `projective_plane_to_OA_correct`: the Fano plane (order 2,
default `pt = 6`), with the embedded function evaluated concretely. -/
theorem projective_plane_to_OA_correct_witness :
    projective_plane_to_OA
      (7, [[0,2,4],[1,3,4],[0,3,5],[1,2,5],[0,1,6],[2,3,6],[4,5,6]]) .none true =
      .ok [[0,0,0],[1,1,0],[0,1,1],[1,0,1]] := by
  have h := (projective_plane_to_OA_correct 2
    (7, [[0,2,4],[1,3,4],[0,3,5],[1,2,5],[0,1,6],[2,3,6],[4,5,6]]) .none true
    (by simp only [IsProjectivePlane]; decide) (by decide)).1
  rw [h]
  decide

/-! ### ProjectiveGeometryDesign (lines 135-147) -/

/-- Embedding of the default (`algorithm is None`) branch of
`ProjectiveGeometryDesign` (lines 135-147).  The subspace enumeration and the
inclusion test are supplied by the external vector-space collaborator as
`points`, `flats` and `issub`.  The source appends one block per POINT `p`,
listing the indices `i` of the flats with `p.is_subspace(flats[i])`. -/
def ProjectiveGeometryDesign {α β : Type} (v : ℕ) (points : List α)
    (flats : List β) (issub : α → β → Bool) : ℕ × List (List ℕ) :=
  (v, points.map fun p => (flats.enum.filter fun iq => issub p iq.2).map Prod.fst)

/-- Modelled from the spec: the vector space `GF(2)^4` of the collaborator,
with vectors encoded as 4-bit naturals and vector addition as XOR.  A
subspace is represented by its set of vectors; the 15 one-dimensional
subspaces are the pairs `{0, v}` for `v ≠ 0`. -/
def gf2_4_points : List (Finset ℕ) :=
  ((List.range 16).filter fun v => decide (v ≠ 0)).map fun v => ({0, v} : Finset ℕ)

/-- Modelled from the spec: the two-dimensional subspaces (line flats) of
`GF(2)^4`, as spans `{0, u, w, u+w}` of independent pairs, deduplicated. -/
def gf2_4_flats : List (Finset ℕ) :=
  ((((List.range 16).flatMap fun u => (List.range 16).map fun w => (u, w)).filter
    fun p => decide (p.1 ≠ 0 ∧ p.2 ≠ 0 ∧ p.1 ≠ p.2)).map
      fun p => ({0, p.1, p.2, p.1 ^^^ p.2} : Finset ℕ)).dedup

/-- C5 evaluation: `ProjectiveGeometryDesign` always produces one block per
point, so on `PG(3, 2)` with `d = 1` (15 points, 35 line flats) it returns 15
blocks whose elements are flat indices, some of which exceed the declared
point count 15 — not the documented 35 blocks (one per flat) of point
indices. -/
theorem ProjectiveGeometryDesign_one_block_per_point :
    (∀ {α β : Type} (v : ℕ) (points : List α) (flats : List β)
      (issub : α → β → Bool),
      (ProjectiveGeometryDesign v points flats issub).2.length = points.length) ∧
    gf2_4_points.length = 15 ∧
    gf2_4_flats.length = 35 ∧
    (ProjectiveGeometryDesign 15 gf2_4_points gf2_4_flats
      (fun p f => decide (p ⊆ f))).2.length = 15 ∧
    (∃ b ∈ (ProjectiveGeometryDesign 15 gf2_4_points gf2_4_flats
      (fun p f => decide (p ⊆ f))).2, ∃ j ∈ b, 15 ≤ j) := by
  refine ⟨fun v points flats issub => by
    simp [ProjectiveGeometryDesign], ?_, ?_, ?_, ?_⟩
  · decide
  · set_option maxRecDepth 10000 in decide
  · decide
  · set_option maxRecDepth 10000 in decide

/-! ### C2: the round trip plane → OA → plane -/

/-- A design isomorphism: equal point counts together with a bijection of
the point range carrying the multiset of blocks (as point sets) of the first
design onto that of the second. -/
def DesignIso (D1 D2 : ℕ × List (List ℕ)) : Prop :=
  D1.1 = D2.1 ∧ ∃ f : ℕ → ℕ, Set.BijOn f (Set.Iio D1.1) (Set.Iio D2.1) ∧
    Multiset.map (fun B : List ℕ => B.toFinset.image f) (↑D1.2) =
      Multiset.map (fun B : List ℕ => B.toFinset) (↑D2.2)

/-- C2 counterexample: composing the converters on the Desarguesian plane of
order 2 yields a design in which the transversal block `[0,1,2]` (from OA
row `[0,0,0]`) and the pencil block `[0,1,6]` share two points, so the
result is not even a projective plane and admits no isomorphism onto the
original plane (whose distinct blocks always meet in exactly one point). -/
theorem roundtrip_not_isomorphic :
    projective_plane_to_OA (DesarguesianProjectivePlaneDesign e2) .none true =
      .ok [[0,0,0],[1,1,0],[0,1,1],[1,0,1]] ∧
    OA_to_projective_plane [[0,0,0],[1,1,0],[0,1,1],[1,0,1]] true =
      .ok (7, [[0,1,2],[3,4,2],[0,4,5],[3,1,5],[0,1,6],[2,3,6],[4,5,6]]) ∧
    ¬ DesignIso (7, [[0,1,2],[3,4,2],[0,4,5],[3,1,5],[0,1,6],[2,3,6],[4,5,6]])
        (DesarguesianProjectivePlaneDesign e2) := by
  have hP2 : DesarguesianProjectivePlaneDesign e2 =
      (7, [[0,2,4],[1,3,4],[0,3,5],[1,2,5],[0,1,6],[2,3,6],[4,5,6]]) := by decide
  refine ⟨by decide, by decide, ?_⟩
  rw [hP2]
  rintro ⟨-, f, hbij, hmap⟩
  simp only at hbij hmap
  have hinj := hbij.injOn
  have hA : (([0,1,2] : List ℕ).toFinset.image f) ∈
      Multiset.map (fun B : List ℕ => B.toFinset)
        (↑([[0,2,4],[1,3,4],[0,3,5],[1,2,5],[0,1,6],[2,3,6],[4,5,6]] : List (List ℕ))) := by
    rw [← hmap]
    exact Multiset.mem_map_of_mem _ (by simp)
  have hB : (([0,1,6] : List ℕ).toFinset.image f) ∈
      Multiset.map (fun B : List ℕ => B.toFinset)
        (↑([[0,2,4],[1,3,4],[0,3,5],[1,2,5],[0,1,6],[2,3,6],[4,5,6]] : List (List ℕ))) := by
    rw [← hmap]
    exact Multiset.mem_map_of_mem _ (by simp)
  obtain ⟨CA, hCA, hCAeq⟩ := Multiset.mem_map.1 hA
  obtain ⟨CB, hCB, hCBeq⟩ := Multiset.mem_map.1 hB
  rw [Multiset.mem_coe] at hCA hCB
  have hfano : ∀ C1 ∈ ([[0,2,4],[1,3,4],[0,3,5],[1,2,5],[0,1,6],[2,3,6],[4,5,6]] :
      List (List ℕ)), ∀ C2 ∈ ([[0,2,4],[1,3,4],[0,3,5],[1,2,5],[0,1,6],[2,3,6],[4,5,6]] :
      List (List ℕ)), C1.toFinset ≠ C2.toFinset →
      (C1.toFinset ∩ C2.toFinset).card = 1 := by decide
  have hf01 : f 0 ≠ f 1 := fun h => by
    have := hinj (by norm_num : (0:ℕ) ∈ Set.Iio 7) (by norm_num : (1:ℕ) ∈ Set.Iio 7) h
    omega
  have hf2 : f 2 ∉ ([0,1,6] : List ℕ).toFinset.image f := by
    intro hmem
    obtain ⟨a, ha, hfa⟩ := Finset.mem_image.1 hmem
    have ha7 : a ∈ Set.Iio (7:ℕ) := by
      simp only [List.toFinset_cons, List.toFinset_nil] at ha
      fin_cases ha <;> norm_num
    have := hinj ha7 (by norm_num : (2:ℕ) ∈ Set.Iio 7) hfa
    subst this
    simp at ha
  have hABne : ([0,1,2] : List ℕ).toFinset.image f ≠ ([0,1,6] : List ℕ).toFinset.image f := by
    intro h
    apply hf2
    rw [← h]
    exact Finset.mem_image_of_mem f (by simp)
  have hCne : CA.toFinset ≠ CB.toFinset := by
    rw [hCAeq, hCBeq]
    exact hABne
  have hcard1 := hfano CA hCA CB hCB hCne
  have hsub : ({f 0, f 1} : Finset ℕ) ⊆ CA.toFinset ∩ CB.toFinset := by
    intro z hz
    rcases Finset.mem_insert.1 hz with rfl | hz
    · refine Finset.mem_inter.2 ⟨?_, ?_⟩
      · rw [hCAeq]
        exact Finset.mem_image_of_mem f (by simp)
      · rw [hCBeq]
        exact Finset.mem_image_of_mem f (by simp)
    · rw [Finset.mem_singleton] at hz
      subst hz
      refine Finset.mem_inter.2 ⟨?_, ?_⟩
      · rw [hCAeq]
        exact Finset.mem_image_of_mem f (by simp)
      · rw [hCBeq]
        exact Finset.mem_image_of_mem f (by simp)
  have hge := Finset.card_le_card hsub
  rw [Finset.card_pair hf01, hcard1] at hge
  omega
